import Mathlib

/-!
# Loopless generation of combinations (`loopless.c`)

A shallow embedding of `binom`, `visit`, `the_coolest`, `gen_comb_coolest`,
`next_comb` and `gen_comb_algo57`, followed by the properties proved of them.
-/

namespace Loopless

/-! ## Data model of `loopless.c`

`Kvalue` is `unsigned short` (16 bits), `Node` is `unsigned int` (32 bits),
`REG` is `unsigned long long` (64 bits).  Machine integers are natural numbers
reduced explicitly modulo the width; `short int J` is an integer wrapped by
`toShort`.  An operation whose behaviour the C language leaves undefined (a
shift of the `int` literal `1` by more than 30 places, an access outside an
allocated block) yields `none`. -/

/-! ### The program -/

/-- Record `combination`: universe size `k`, subset size `z`, count `n` of
stored rows, and the block `tab` of `Kvalue` slots obtained from `malloc`. -/
structure combination where
  k : Nat
  z : Nat
  n : Nat
  tab : List Nat
deriving DecidableEq, Repr

/-- The `for (d = 1; d <= k; ++d) { r *= n--; r /= d; }` loop of `binom`,
by recursion on the number of passes left: `r` is a 32-bit `Node`, `n` a 16-bit
`Kvalue`. -/
def binom_loop : Nat → Nat → Nat → Nat → Nat
  | 0, _, _, r => r
  | m + 1, d, n, r => binom_loop m (d + 1) ((n + 65535) % 65536) (r * n % 2 ^ 32 / d)

/-- Function `binom (Kvalue n, Kvalue k)`: returns 0 when `k > n`, replaces `k` by
`n - k` when `k < n - k`, then runs the multiplicative loop `k` times. -/
def binom (n k : Nat) : Nat :=
  if k > n then 0
  else
    let k1 := if k < n - k then n - k else k
    binom_loop k1 1 n 1

/-- The C expression `1 << p` with an `int`-typed literal `1` (32-bit `int`):
defined for `p ≤ 30` only; the value is then converted to `REG` unchanged. -/
def shl_int (p : Nat) : Option Nat :=
  if p ≤ 30 then some (2 ^ p) else none

/-- Macro `BITISET(var, position)`, that is `(var) & (1<<(position))`. -/
def BITISET (var position : Nat) : Option Nat :=
  (shl_int position).map (fun m => var &&& m)

/-- Assignment `tab[idx] = v` into a block of `tab.length` slots of 16 bits. -/
def store (tab : List Nat) (idx v : Nat) : Option (List Nat) :=
  if idx < tab.length then some (tab.set idx (v % 65536)) else none

/-- The `for` loop of `visit`, by recursion on the number `64 - i` of positions
left; `bc` is `bit_combination`, `k` the subset size handed to `visit`. -/
def visit_loop (bc k : Nat) : Nat → Nat → Nat → combination → Option combination
  | 0, _, _, c => some c
  | m + 1, i, ki, c =>
    if ki < k ∧ i < 64 then
      match BITISET bc i with
      | none => none
      | some b =>
        if b ≠ 0 then
          match store c.tab ((c.n * k + ki) % 2 ^ 32) i with
          | none => none
          | some tab1 => visit_loop bc k m (i + 1) (ki + 1) { c with tab := tab1 }
        else visit_loop bc k m (i + 1) ki c
    else some c

/-- Function `visit`: decode the register into the next row, then `combs->n++`. -/
def visit (bc k : Nat) (c : combination) : Option combination :=
  (visit_loop bc k 64 0 0 c).map (fun c1 => { c1 with n := (c1.n + 1) % 2 ^ 32 })

/-- Lines 107-117 of `the_coolest`: the new value of `R3` computed from the old
one in 64-bit unsigned arithmetic. -/
def coolest_step (R3 : Nat) : Nat :=
  let R0 := R3 &&& ((R3 + 1) % 2 ^ 64)
  let R1 := R0 ^^^ ((R0 + (2 ^ 64 - 1)) % 2 ^ 64)
  let R0 := (R1 + 1) % 2 ^ 64
  let R1 := R1 &&& R3
  let R4 := ((R0 &&& R3) + (2 ^ 64 - 1)) % 2 ^ 64
  let R4 := R4 &&& (if R4 ≤ (R0 &&& R3) then 2 ^ 64 - 1 else 0)
  let R0 := R4
  ((R3 + R1) % 2 ^ 64 + (2 ^ 64 - R0)) % 2 ^ 64

/-- Lines 113-114 of `the_coolest`, `R4 = x - 1; R4 &= -(R4 <= x);`, with `x`
standing for the 64-bit value `R0 & R3`: the comparison yields the `int` 0 or 1,
its negation converted to `REG` is 0 or `2^64 - 1`. -/
def sat_sub (x : Nat) : Nat :=
  let R4 := (x + (2 ^ 64 - 1)) % 2 ^ 64
  R4 &&& (if R4 ≤ x then 2 ^ 64 - 1 else 0)

/-- One pass of the `while` body of `the_coolest` on the pair (`R3`, `combs`). -/
def coolest_pass (k : Nat) (s : Nat × combination) : Option (Nat × combination) :=
  (visit s.1 k s.2).map (fun c => (coolest_step s.1, c))

/-- The `while ((R3 & R2) == 0)` loop of `the_coolest`; `none` also when the
fuel is used up before the guard fails. -/
def coolest_loop (k R2 : Nat) : Nat → Nat × combination → Option combination
  | 0, _ => none
  | fuel + 1, s =>
    if s.1 &&& R2 = 0 then (coolest_pass k s).bind (coolest_loop k R2 fuel)
    else some s.2

/-- Lines 99-104 of `the_coolest`: the pair (`R2`, `R3`) on entry to the loop,
`R2 = 1 << (s + t)` and `R3 = (1 << t) - 1` with `t = k`, `s = n - t` (64 bits). -/
def coolest_init (n k : Nat) : Option (Nat × Nat) :=
  let t := k
  let s := (n + (2 ^ 64 - t)) % 2 ^ 64
  match shl_int ((s + t) % 2 ^ 64), shl_int t with
  | some R2, some m => some (R2, m - 1)
  | _, _ => none

/-- Function `the_coolest (REG n, Kvalue k, combination* combs)`. -/
def the_coolest (fuel n k : Nat) (combs : combination) : Option combination :=
  match coolest_init n k with
  | some (R2, R3) => coolest_loop k R2 fuel (R3, combs)
  | none => none

/-- Freshly allocated `combination` of `gen_comb_coolest` and `gen_comb_algo57`:
`n = 0` and a block of `binom(k, z) * z` slots (product taken in 32 bits). -/
def new_comb (k z : Nat) : combination :=
  { k := k, z := z, n := 0, tab := List.replicate (binom k z * z % 2 ^ 32) 0 }

/-- Function `gen_comb_coolest (Kvalue k, Kvalue z)`. -/
def gen_comb_coolest (fuel k z : Nat) : Option combination :=
  the_coolest fuel k z (new_comb k z)

/-- The globals `Kvalue* A` and `short int J`. -/
structure Globals where
  A : List Nat
  J : Int
deriving DecidableEq, Repr

/-- Conversion of an `int` to `short int` (two's complement, 16 bits). -/
def toShort (x : Int) : Int := (x + 32768) % 65536 - 32768

/-- Conversion of an `int` to `Kvalue` (`unsigned short`). -/
def toKvalue (x : Int) : Nat := (x % 65536).toNat

/-- Read `A[i]` for an `int` index `i`; `none` outside the allocated slots. -/
def rdA (A : List Nat) (i : Int) : Option Nat :=
  if 0 ≤ i then A[i.toNat]? else none

/-- Assignment `A[i] = v` for an `int` index and an `int` value. -/
def wrA (A : List Nat) (i : Int) (v : Int) : Option (List Nat) :=
  if 0 ≤ i ∧ i.toNat < A.length then some (A.set i.toNat (toKvalue v)) else none

/-- Function `next_comb` on the globals. -/
def next_comb (g : Globals) : Option Globals :=
  if g.J < 0 then do
    let a0 ← rdA g.A 0
    let A1 ← wrA g.A 0 ((a0 : Int) - 1)
    let b0 ← rdA A1 0
    if b0 = 0 then some ⟨A1, toShort (g.J + 2)⟩ else some ⟨A1, g.J⟩
  else do
    let aj1 ← rdA g.A (g.J + 1)
    let aj ← rdA g.A g.J
    if aj1 = aj + 1 then do
      let A1 ← wrA g.A (g.J + 1) aj
      let A2 ← wrA A1 g.J g.J
      let bj1 ← rdA A2 (g.J + 1)
      let bj ← rdA A2 g.J
      if bj1 = bj + 1 then some ⟨A2, toShort (g.J + 2)⟩ else some ⟨A2, g.J⟩
    else do
      let A1 ← wrA g.A g.J ((aj : Int) + 1)
      if g.J > 0 then do
        let bj ← rdA A1 g.J
        let A2 ← wrA A1 (g.J - 1) ((bj : Int) - 1)
        some ⟨A2, toShort (g.J - 2)⟩
      else some ⟨A1, g.J⟩

/-- Call `memcpy (tab + off, src, len * sizeof (Kvalue))`. -/
def memcpy (tab : List Nat) (off : Nat) (src : List Nat) : Option (List Nat) :=
  if off + src.length ≤ tab.length then
    some (tab.take off ++ src ++ tab.drop (off + src.length))
  else none

/-- Globals of `gen_comb_algo57` when its `while` loop is entered:
`A[i] = i` for `i < z`, `A[z] = k`, `J = z - 1`. -/
def algo57_init (k z : Nat) : Globals :=
  ⟨List.range z ++ [k], toShort ((z : Int) - 1)⟩

/-- The `while (A[z] >= k)` loop of `gen_comb_algo57`; `none` also when the fuel
is used up before the guard fails. -/
def algo57_loop (k : Nat) : Nat → Globals → combination → Option combination
  | 0, _, _ => none
  | fuel + 1, g, comb =>
    match g.A[comb.z]? with
    | none => none
    | some az =>
      if az ≥ k then
        match memcpy comb.tab (comb.n * comb.z % 2 ^ 32) (g.A.take comb.z) with
        | none => none
        | some tab1 =>
          match next_comb g with
          | none => none
          | some g1 =>
            algo57_loop k fuel g1 { comb with tab := tab1, n := (comb.n + 1) % 2 ^ 32 }
      else some comb

/-- Function `gen_comb_algo57 (Kvalue k, Kvalue z)`. -/
def gen_comb_algo57 (fuel k z : Nat) : Option combination :=
  algo57_loop k fuel (algo57_init k z) (new_comb k z)



/-! ### Observing a run

The loop states of `the_coolest`, the states of the globals of
`gen_comb_algo57`, and the rows read back from a `combination` the way
`print_combinations` reads them. -/

/-- The state of the `while` loop of `the_coolest` after `i` passes, started
from `s`; `none` once the guard has failed or `visit` has faulted. -/
def coolest_iter (k R2 : Nat) : Nat → Nat × combination → Option (Nat × combination)
  | 0, s => some s
  | i + 1, s =>
    (coolest_iter k R2 i s).bind
      (fun s1 => if s1.1 &&& R2 = 0 then coolest_pass k s1 else none)

/-- The successive values of the globals in the `while` loop of
`gen_comb_algo57`: the value at each test of the guard, the last entry being
the one at which the guard fails.  The destination buffer does not occur. -/
def algo57_trace (k z : Nat) : Nat → Globals → Option (List Globals)
  | 0, _ => none
  | fuel + 1, g =>
    match g.A[z]? with
    | none => none
    | some az =>
      if az ≥ k then
        match next_comb g with
        | none => none
        | some g1 => (algo57_trace k z fuel g1).map (fun l => g :: l)
      else some [g]

/-- One pass of the `while` loop of `gen_comb_algo57` on the globals and the
`combination`: the test of the guard, the `memcpy`, the call of `next_comb` and
`comb->n++`; `none` when the guard fails or an access is out of range. -/
def algo57_pass (k : Nat) (s : Globals × combination) : Option (Globals × combination) :=
  match s.1.A[s.2.z]? with
  | none => none
  | some az =>
    if az ≥ k then
      match memcpy s.2.tab (s.2.n * s.2.z % 2 ^ 32) (s.1.A.take s.2.z) with
      | none => none
      | some tab1 =>
        match next_comb s.1 with
        | none => none
        | some g1 => some (g1, { s.2 with tab := tab1, n := (s.2.n + 1) % 2 ^ 32 })
    else none

/-- The globals and the `combination` of `gen_comb_algo57` after `i` passes of
its loop, started from `s`; `none` once the guard has failed or an access was
out of range. -/
def algo57_iter (k : Nat) : Nat → Globals × combination → Option (Globals × combination)
  | 0, s => some s
  | i + 1, s => (algo57_iter k i s).bind (algo57_pass k)

/-- The arrays `A[0..z)` handed to `memcpy`, in order, read off a trace. -/
def emitted (z : Nat) (tr : List Globals) : List (List Nat) :=
  tr.dropLast.map (fun g => g.A.take z)

/-- Rows of a `combination`: row `i` is `tab[i*z .. i*z+z)`, for `i < n`. -/
def rows (c : combination) : List (List Nat) :=
  (List.range c.n).map (fun i => (c.tab.drop (i * c.z)).take c.z)

/-! ### Vocabulary of the statements -/

/-- A strictly increasing list of `z` indices below `k`. -/
def IsComb (k z : Nat) (l : List Nat) : Prop :=
  l.length = z ∧ l.Sorted (· < ·) ∧ ∀ i ∈ l, i < k

/-- The list `L` holds every `z`-element subset of `{0, ..., k-1}`, as a strictly
increasing index list, exactly once. -/
def Enumerates (k z : Nat) (L : List (List Nat)) : Prop :=
  L.Nodup ∧ ∀ l, l ∈ L ↔ IsComb k z l

/-- The globals `g` are fit for a call of `next_comb` on an array of `z + 1`
slots: the cursor lies in `[-1, z - 1]`, `A[0] ≥ 1` when the cursor is
negative, and the call reads and writes inside the slots only (it yields a
result). -/
def CallInRange (z : Nat) (g : Globals) : Prop :=
  g.A.length = z + 1 ∧ -1 ≤ g.J ∧ g.J ≤ (z : Int) - 1 ∧
    (g.J < 0 → ∃ a0, g.A[0]? = some a0 ∧ 1 ≤ a0) ∧ (next_comb g).isSome = true

/-- Positions below `m` of the set bits of `R`, in increasing order. -/
def bitsBelow (m R : Nat) : List Nat :=
  (List.range m).filter (fun i => R.testBit i)

/-- Number of set bits of a 64-bit register. -/
def popcount (R : Nat) : Nat := (bitsBelow 64 R).length

/-! ### Descriptions given by the specification, for comparison -/

/-- The saturating decrement as the specification words it: `x - 1` for
`x > 0`, and 0 for `x = 0`. -/
def satdec (x : Nat) : Nat := if x = 0 then 0 else x - 1

/-- The successor step as the specification words it (section 4.2, steps 1-4):
`o = R & (R+1)`, `t = (o ^ (o-1)) & R`, new register
`R + t - satdec (o & R)`, in 64-bit unsigned arithmetic. -/
def spec_successor (R : Nat) : Nat :=
  let o := R &&& ((R + 1) % 2 ^ 64)
  let t := (o ^^^ ((o + (2 ^ 64 - 1)) % 2 ^ 64)) &&& R
  ((R + t) % 2 ^ 64 + (2 ^ 64 - satdec (o &&& R))) % 2 ^ 64

/-- The accumulation `r = r * (k-d+1) / d` of the specification (section 4.1),
in 32-bit unsigned arithmetic, by recursion on the number of values of `d`
left. -/
def spec_binom_loop (k : Nat) : Nat → Nat → Nat → Nat
  | 0, _, r => r
  | m + 1, d, r => spec_binom_loop k m (d + 1) (r * (k - d + 1) % 2 ^ 32 / d)

/-- The binomial counter as the specification words it: 0 when `z > k`,
otherwise the accumulation run for `d = 1 .. min (z, k - z)` from `r = 1`. -/
def spec_binom (k z : Nat) : Nat :=
  if z > k then 0 else spec_binom_loop k (min z (k - z)) 1 1

/-! ### The two orders, used in the proofs

The cool-lex order followed by `the_coolest` and the revolving-door order
followed by `next_comb`, each given by its recursive description. -/

/-- The row that `visit` writes for register `R` and subset size `z`: the
positions of the `z` lowest set bits. -/
def decode (z R : Nat) : List Nat := (bitsBelow 31 R).take z

/-- The cool-lex list of the registers with `t` set bits below position `m`,
without its first entry `2^t - 1`: the entries with bit `m - 1` clear come
first, then those with bit `m - 1` set, the last one being `1^(t-1) 0^(m-t) 1`. -/
def coolT : Nat → Nat → List Nat
  | 0, _ => []
  | _ + 1, 0 => []
  | m + 1, t + 1 =>
    if m ≤ t then []
    else coolT m (t + 1) ++ (coolT m t).map (fun x => x + 2 ^ m) ++ [2 ^ t - 1 + 2 ^ m]

/-- The cool-lex list of the registers with `t` set bits below position `m`. -/
def coolList (m t : Nat) : List Nat := (2 ^ t - 1) :: coolT m t

/-- Register `x` is followed by `y` whatever stands at the positions `m` and
above (as long as bit 63 stays clear). -/
def StepsTo (m x y : Nat) : Prop :=
  ∀ h, 2 ^ m * h + x < 2 ^ 63 → coolest_step (2 ^ m * h + x) = 2 ^ m * h + y

/-- Revolving-door list of the `t`-element subsets of `{0, ..., m-1}`: the
subsets without `m - 1`, then those with `m - 1` in the reverse of the order of
their remaining `t - 1` elements. -/
def rdList : Nat → Nat → List (List Nat)
  | _, 0 => [[]]
  | 0, _ + 1 => []
  | m + 1, t + 1 => rdList m (t + 1) ++ ((rdList m t).reverse).map (fun l => l ++ [m])

/-- Length of the longest run `A[0] = i, A[1] = i + 1, ...` at the head of `A`. -/
def packedLen : List Nat → Nat → Nat
  | [], _ => 0
  | a :: l, i => if a = i then packedLen l (i + 1) + 1 else 0

/-- The value of the cursor `J` that goes with the array `A` of a subset of size
`z`: with `q` the number of leading positions `i < z` holding `A[i] = i`, the
largest integer `J ≤ q` of the parity of `z - 1`. -/
def cursor (z : Nat) (A : List Nat) : Int :=
  if (packedLen (A.take z) 0 + z) % 2 = 1 then (packedLen (A.take z) 0 : Int)
  else (packedLen (A.take z) 0 : Int) - 1

/-- The cursor left by the call of `next_comb` that ends the loop. -/
def lastJ (k z : Nat) : Int :=
  if k = z + 1 then toShort ((z : Int) + 1) else (z : Int) - 1

/-- The globals met by the loop of `gen_comb_algo57`: the subsets in
revolving-door order, each followed by the sentinel `k` and carrying its
cursor, then the closing array `0, ..., z-1` with the sentinel lowered to
`k - 1`. -/
def algo57_states (k z : Nat) : List Globals :=
  (rdList k z).map (fun c => (⟨c ++ [k], cursor z (c ++ [k])⟩ : Globals))
    ++ [⟨List.range z ++ [k - 1], lastJ k z⟩]

/-- Exchange at index `i`: `A[i]` is raised by one (staying below `A[i+1] - 1`)
and, when `i > 0`, `A[i-1]` leaves the packed run `0, 1, ..., i-1` to take the
old value of `A[i]`. -/
def UpAt (i : Nat) (A B : List Nat) : Prop :=
  ∃ x y rest, x + 1 < y ∧
    ((i = 0 ∧ A = x :: y :: rest ∧ B = (x + 1) :: y :: rest) ∨
     (∃ p, i = p + 1 ∧ p < x ∧ A = List.range p ++ p :: x :: y :: rest ∧
       B = List.range p ++ x :: (x + 1) :: y :: rest))

/-- A move of the revolving-door order for subsets of a size of the parity of
`par`: an exchange at an index of the other parity, or the inverse of an
exchange at an index of the same parity. -/
def MoveP (par : Nat) (A B : List Nat) : Prop :=
  ∃ i, (i % 2 ≠ par % 2 ∧ UpAt i A B) ∨ (i % 2 = par % 2 ∧ UpAt i B A)

/-! ## Properties -/

theorem choose_le_of_le_thirty (n j : Nat) (hn : n ≤ 29) : Nat.choose n j ≤ 77558760 := by
  have h1 : Nat.choose n j ≤ Nat.choose 29 j := Nat.choose_le_choose j hn
  have h2 : Nat.choose 29 j ≤ Nat.choose 29 (29 / 2) := Nat.choose_le_middle j 29
  have h3 : Nat.choose 29 (29 / 2) = 77558760 := by
    norm_num [Nat.choose_eq_factorial_div_factorial, Nat.factorial]
  omega

/-- Below 2^32: the product formed by `r *= n--` before the division. -/
theorem choose_mul_lt (n j : Nat) (hn : n ≤ 30) : Nat.choose n (j + 1) * (j + 1) < 2 ^ 32 := by
  cases n with
  | zero => simp
  | succ n0 =>
    have h : (n0 + 1) * Nat.choose n0 j = Nat.choose (n0 + 1) (j + 1) * (j + 1) :=
      Nat.succ_mul_choose_eq n0 j
    have hb := choose_le_of_le_thirty n0 j (by omega)
    have : (n0 + 1) * Nat.choose n0 j ≤ 30 * 77558760 := Nat.mul_le_mul (by omega) hb
    omega

theorem choose_le_buffer (n j : Nat) (hn : n ≤ 30) : Nat.choose n j * j < 2 ^ 32 := by
  cases j with
  | zero => simp
  | succ j0 => exact choose_mul_lt n j0 hn

/-- Invariant of the loop of `binom`: entering pass `j + 1` with `r = C(n0, j)`
and `n = n0 - j`, the `m` passes left end with `C(n0, j + m)`. -/
theorem binom_loop_eq (n0 : Nat) (hn : n0 ≤ 30) :
    ∀ m j, j + m ≤ n0 →
      binom_loop m (j + 1) (n0 - j) (Nat.choose n0 j) = Nat.choose n0 (j + m) := by
  intro m
  induction m with
  | zero => intro j _; rfl
  | succ m ih =>
    intro j hj
    have h1 : Nat.choose n0 (j + 1) * (j + 1) = Nat.choose n0 j * (n0 - j) :=
      Nat.choose_succ_right_eq n0 j
    have h2 := choose_mul_lt n0 j hn
    have h3 : Nat.choose n0 j * (n0 - j) % 2 ^ 32 / (j + 1) = Nat.choose n0 (j + 1) := by
      rw [← h1, Nat.mod_eq_of_lt h2, Nat.mul_div_cancel _ (Nat.succ_pos j)]
    have h4 : (n0 - j + 65535) % 65536 = n0 - (j + 1) := by omega
    show binom_loop m (j + 1 + 1) ((n0 - j + 65535) % 65536)
        (Nat.choose n0 j * (n0 - j) % 2 ^ 32 / (j + 1)) = _
    rw [h3, h4, ih (j + 1) (by omega), Nat.add_assoc, Nat.add_comm 1 m]

theorem binom_eq_choose (n k : Nat) (hk : k ≤ n) (hn : n ≤ 30) : binom n k = Nat.choose n k := by
  unfold binom
  rw [if_neg (by omega)]
  have h := binom_loop_eq n hn
  by_cases hlt : k < n - k
  · simp only [hlt, if_true]
    have := h (n - k) 0 (by omega)
    simp only [Nat.zero_add, Nat.sub_zero, Nat.choose_zero_right] at this
    rw [this, Nat.choose_symm hk]
  · simp only [hlt, if_false]
    have := h k 0 (by omega)
    simp only [Nat.zero_add, Nat.sub_zero, Nat.choose_zero_right] at this
    exact this

theorem land_split (n h1 x1 h2 x2 : Nat) (hx1 : x1 < 2 ^ n) (hx2 : x2 < 2 ^ n) :
    (2 ^ n * h1 + x1) &&& (2 ^ n * h2 + x2) = 2 ^ n * (h1 &&& h2) + (x1 &&& x2) := by
  have h3 : x1 &&& x2 < 2 ^ n := Nat.and_lt_two_pow _ hx2
  apply Nat.eq_of_testBit_eq
  intro i
  simp only [Nat.testBit_and, Nat.testBit_mul_pow_two_add _ hx1, Nat.testBit_mul_pow_two_add _ hx2,
    Nat.testBit_mul_pow_two_add _ h3]
  split <;> simp

theorem lxor_split (n h1 x1 h2 x2 : Nat) (hx1 : x1 < 2 ^ n) (hx2 : x2 < 2 ^ n) :
    (2 ^ n * h1 + x1) ^^^ (2 ^ n * h2 + x2) = 2 ^ n * (h1 ^^^ h2) + (x1 ^^^ x2) := by
  have h3 : x1 ^^^ x2 < 2 ^ n := Nat.xor_lt_two_pow hx1 hx2
  apply Nat.eq_of_testBit_eq
  intro i
  simp only [Nat.testBit_xor, Nat.testBit_mul_pow_two_add _ hx1, Nat.testBit_mul_pow_two_add _ hx2,
    Nat.testBit_mul_pow_two_add _ h3]
  split <;> simp

theorem land_pow_pred (a : Nat) : (2 ^ a - 1) &&& 2 ^ a = 0 := by
  apply Nat.eq_of_testBit_eq
  intro i
  simp [Nat.testBit_two_pow]
  omega

theorem lxor_succ_double (y : Nat) : (2 * y + 1) ^^^ (2 * y) = 1 := by
  apply Nat.eq_of_testBit_eq
  intro i
  cases i with
  | zero => simp [Nat.testBit_zero]; omega
  | succ j =>
    have h1 : (2 * y + 1) / 2 = y := by omega
    have h2 : (2 * y) / 2 = y := by omega
    rw [Nat.testBit_succ, Nat.xor_div_two, h1, h2]
    simp [Nat.testBit_succ]

/-- One pass on a register `1^a 0^(p-a) 1 y` (least significant bit first). -/
theorem coolest_step_run (a p y : Nat) (hap : a < p) (hR : 2 ^ (p + 1) * y + 2 ^ p + (2 ^ a - 1) < 2 ^ 63) :
    coolest_step (2 ^ (p + 1) * y + 2 ^ p + (2 ^ a - 1)) =
      if y % 2 = 1 then 2 ^ (p + 1) * y + (2 ^ (a + 1) - 1)
      else 2 ^ (p + 1) * (y + 1) + (2 ^ (a + 1) - 2) := by
  have ha : 0 < 2 ^ a := Nat.two_pow_pos a
  have hp : 0 < 2 ^ p := Nat.two_pow_pos p
  have hap2 : 2 ^ a < 2 ^ p := Nat.pow_lt_pow_right (by norm_num) hap
  have hpp : 2 ^ (p + 1) = 2 * 2 ^ p := by rw [pow_succ]; ring
  have haa : 2 ^ (a + 1) = 2 * 2 ^ a := by rw [pow_succ]; ring
  have hy : 2 ^ (p + 1) * y = 2 ^ p * (2 * y) := by rw [hpp]; ring
  have e1 : 2 ^ (p + 1) * y + 2 ^ p + (2 ^ a - 1) = 2 ^ p * (2 * y + 1) + (2 ^ a - 1) := by
    rw [hpp]; ring
  have hR2 : 2 ^ p * (2 * y + 1) + (2 ^ a - 1) < 2 ^ 63 := by rw [← e1]; exact hR
  have hmul : 2 ^ p * (2 * y + 1) = 2 ^ p * (2 * y) + 2 ^ p := by ring
  have hm1 : 2 ^ p * (2 * y) = 2 * (2 ^ p * y) := by ring
  have hm2 : 2 ^ (p + 1) * y = 2 * (2 ^ p * y) := by rw [hpp]; ring
  have hm3 : 2 ^ (p + 1) * (y + 1) = 2 * (2 ^ p * y) + 2 * 2 ^ p := by rw [hpp]; ring
  have e2 : (2 ^ p * (2 * y + 1) + (2 ^ a - 1) + 1) % 2 ^ 64 = 2 ^ p * (2 * y + 1) + 2 ^ a := by
    rw [Nat.mod_eq_of_lt (by omega)]; omega
  have s1 : (2 ^ p * (2 * y + 1) + (2 ^ a - 1)) &&& (2 ^ p * (2 * y + 1) + 2 ^ a)
      = 2 ^ p * (2 * y + 1) := by
    rw [land_split _ _ _ _ _ (by omega) hap2, Nat.and_self, land_pow_pred]; rfl
  have e3 : (2 ^ p * (2 * y + 1) + (2 ^ 64 - 1)) % 2 ^ 64 = 2 ^ p * (2 * y) + (2 ^ p - 1) := by
    have : 2 ^ p * (2 * y + 1) + (2 ^ 64 - 1) = (2 ^ p * (2 * y) + (2 ^ p - 1)) + 2 ^ 64 := by omega
    rw [this, Nat.add_mod_right, Nat.mod_eq_of_lt (by omega)]
  have s2 : (2 ^ p * (2 * y + 1)) ^^^ (2 ^ p * (2 * y) + (2 ^ p - 1)) = 2 ^ (p + 1) - 1 := by
    have := lxor_split p (2 * y + 1) 0 (2 * y) (2 ^ p - 1) hp (by omega)
    rw [Nat.add_zero, lxor_succ_double, Nat.zero_xor] at this
    rw [this]; omega
  have e4 : (2 ^ (p + 1) - 1 + 1) % 2 ^ 64 = 2 ^ (p + 1) := by
    rw [Nat.mod_eq_of_lt (by omega)]; omega
  have s3 : (2 ^ (p + 1) - 1) &&& (2 ^ p * (2 * y + 1) + (2 ^ a - 1)) = 2 ^ p + (2 ^ a - 1) := by
    rw [Nat.and_comm, Nat.and_pow_two_sub_one_eq_mod, ← e1]
    rw [show 2 ^ (p + 1) * y + 2 ^ p + (2 ^ a - 1) = (2 ^ p + (2 ^ a - 1)) + 2 ^ (p + 1) * y by ring,
      Nat.add_mul_mod_self_left, Nat.mod_eq_of_lt (by omega)]
  have s4 : 2 ^ (p + 1) &&& (2 ^ p * (2 * y + 1) + (2 ^ a - 1)) = 2 ^ (p + 1) * (y % 2) := by
    have := land_split (p + 1) 1 0 y (2 ^ p + (2 ^ a - 1)) (Nat.two_pow_pos _) (by omega)
    simp only [Nat.zero_and, Nat.one_and_eq_mod_two, Nat.add_zero, Nat.mul_one] at this
    have e : 2 ^ (p + 1) * y + (2 ^ p + (2 ^ a - 1)) = 2 ^ p * (2 * y + 1) + (2 ^ a - 1) := by
      rw [← e1]; ring
    rw [← e, this]
  rw [e1]
  simp only [coolest_step]
  rw [e2, s1, e3, s2, e4, s3, s4]
  have hsum : (2 ^ p * (2 * y + 1) + (2 ^ a - 1) + (2 ^ p + (2 ^ a - 1))) % 2 ^ 64
      = 2 ^ p * (2 * y + 1) + (2 ^ a - 1) + (2 ^ p + (2 ^ a - 1)) := Nat.mod_eq_of_lt (by omega)
  rw [hsum]
  rcases Nat.mod_two_eq_zero_or_one y with h0 | h1
  · rw [h0]
    simp only [Nat.mul_zero, Nat.zero_add]
    rw [if_neg (by norm_num), if_neg (by norm_num), Nat.and_zero, Nat.sub_zero, Nat.add_mod_right,
      Nat.mod_eq_of_lt (by omega)]
    omega
  · rw [h1, if_pos rfl, Nat.mul_one]
    have e5 : (2 ^ (p + 1) + (2 ^ 64 - 1)) % 2 ^ 64 = 2 ^ (p + 1) - 1 := by
      have : 2 ^ (p + 1) + (2 ^ 64 - 1) = (2 ^ (p + 1) - 1) + 2 ^ 64 := by omega
      rw [this, Nat.add_mod_right, Nat.mod_eq_of_lt (by omega)]
    rw [e5, if_pos (by omega), Nat.and_pow_two_sub_one_eq_mod, Nat.mod_eq_of_lt (a := 2 ^ (p + 1) - 1) (by omega)]
    have : 2 ^ p * (2 * y + 1) + (2 ^ a - 1) + (2 ^ p + (2 ^ a - 1)) + (2 ^ 64 - (2 ^ (p + 1) - 1))
        = (2 ^ (p + 1) * y + (2 ^ (a + 1) - 1)) + 2 ^ 64 := by omega
    rw [this, Nat.add_mod_right, Nat.mod_eq_of_lt (by omega)]


/-- One pass on a register `1^t` (the `t` low bits set, nothing above): the
register is doubled. -/
theorem coolest_step_low_ones (t : Nat) (ht : t ≤ 62) :
    coolest_step (2 ^ t - 1) = 2 * (2 ^ t - 1) := by
  have hp : 0 < 2 ^ t := Nat.two_pow_pos t
  have hlt : 2 ^ t ≤ 2 ^ 62 := Nat.pow_le_pow_right (by norm_num) ht
  have e1 : (2 ^ t - 1 + 1) % 2 ^ 64 = 2 ^ t := by
    rw [Nat.mod_eq_of_lt (by omega)]; omega
  have e2 : (0 + (2 ^ 64 - 1)) % 2 ^ 64 = 2 ^ 64 - 1 := by norm_num
  have e3 : (2 ^ 64 - 1 + 1) % 2 ^ 64 = 0 := by norm_num
  have e4 : (2 ^ 64 - 1) &&& (2 ^ t - 1) = 2 ^ t - 1 := by
    rw [Nat.and_comm, Nat.and_pow_two_sub_one_eq_mod, Nat.mod_eq_of_lt (by omega)]
  simp only [coolest_step]
  rw [e1, land_pow_pred, e2, Nat.zero_xor, e3, e4, Nat.zero_and, e2,
    if_neg (by norm_num), Nat.and_zero, Nat.sub_zero, Nat.add_mod_right, Nat.mod_mod,
    Nat.mod_eq_of_lt (by omega)]
  omega

theorem coolT_zero_right (m : Nat) : coolT m 0 = [] := by
  cases m <;> rfl

theorem coolT_of_le (m t : Nat) (h : m ≤ t) : coolT m t = [] := by
  cases m with
  | zero => rfl
  | succ m =>
    cases t with
    | zero => omega
    | succ t => simp only [coolT]; rw [if_pos (by omega)]

theorem coolT_succ (m t : Nat) (h : t < m) :
    coolT (m + 1) (t + 1) =
      coolT m (t + 1) ++ (coolT m t).map (fun x => x + 2 ^ m) ++ [2 ^ t - 1 + 2 ^ m] := by
  simp only [coolT]; rw [if_neg (by omega)]

theorem coolT_length (m : Nat) : ∀ t, (coolT m t).length = Nat.choose m t - 1 := by
  induction m with
  | zero =>
    intro t
    cases t with
    | zero => rfl
    | succ t => rfl
  | succ m ih =>
    intro t
    cases t with
    | zero => simp [coolT]
    | succ t =>
      by_cases h : t < m
      · rw [coolT_succ m t h]
        simp only [List.length_append, List.length_map, List.length_singleton, ih]
        have h1 : 0 < Nat.choose m t := Nat.choose_pos (by omega)
        have h2 : 0 < Nat.choose m (t + 1) := Nat.choose_pos (by omega)
        have h3 : Nat.choose (m + 1) (t + 1) = Nat.choose m t + Nat.choose m (t + 1) :=
          Nat.choose_succ_succ m t
        omega
      · rw [coolT_of_le _ _ (by omega)]
        have : m + 1 ≤ t + 1 := by omega
        rcases Nat.lt_or_eq_of_le this with h1 | h1
        · rw [Nat.choose_eq_zero_of_lt h1]; rfl
        · rw [h1, Nat.choose_self]; rfl

theorem coolT_ends (m : Nat) : ∀ t, 0 < t → t < m →
    (coolT m t).head? = some (2 ^ (t + 1) - 2) ∧
    (coolT m t).getLast? = some (2 ^ (t - 1) - 1 + 2 ^ (m - 1)) := by
  induction m with
  | zero => intro t _ h; omega
  | succ m ih =>
    intro t ht htm
    obtain ⟨t, rfl⟩ : ∃ u, t = u + 1 := ⟨t - 1, by omega⟩
    have htm2 : t < m := by omega
    rw [coolT_succ m t htm2]
    refine ⟨?_, by simp⟩
    by_cases h1 : t + 1 < m
    · have := (ih (t + 1) (by omega) h1).1
      rw [List.append_assoc, List.head?_append, this]; rfl
    · have hm : m = t + 1 := by omega
      subst hm
      rw [coolT_of_le (t + 1) (t + 1) (le_refl _), List.nil_append]
      by_cases h0 : 0 < t
      · have := (ih t h0 (by omega)).1
        rw [List.head?_append, List.head?_map, this]
        simp only [Option.map_some', Option.or_some]
        congr 1
        have : 2 ^ (t + 1 + 1) = 2 * 2 ^ (t + 1) := by rw [pow_succ]; ring
        have : 0 < 2 ^ (t + 1) := Nat.two_pow_pos _
        have : 2 ^ (t + 1) = 2 * 2 ^ t := by rw [pow_succ]; ring
        have : 0 < 2 ^ t := Nat.two_pow_pos _
        omega
      · have : t = 0 := by omega
        subst this
        simp [coolT_zero_right]

theorem stepsTo_mono (m x y : Nat) (h : StepsTo m x y) : StepsTo (m + 1) x y := by
  intro hh hlt
  have e : 2 ^ (m + 1) * hh = 2 ^ m * (2 * hh) := by rw [pow_succ]; ring
  rw [e] at hlt ⊢
  exact h _ hlt

theorem stepsTo_shift (m x y : Nat) (h : StepsTo m x y) :
    StepsTo (m + 1) (x + 2 ^ m) (y + 2 ^ m) := by
  intro hh hlt
  have e : ∀ v, 2 ^ (m + 1) * hh + (v + 2 ^ m) = 2 ^ m * (2 * hh + 1) + v := by
    intro v; rw [pow_succ]; ring
  rw [e] at hlt
  rw [e, e]
  exact h _ hlt

/-- Pattern `1^a 0^(p-a) 1 0`: the block is rotated into `0 1^a 0^(p-a) 1`. -/
theorem stepsTo_even (a p : Nat) (hap : a < p) :
    StepsTo (p + 2) (2 ^ a - 1 + 2 ^ p) (2 ^ (a + 1) - 2 + 2 ^ (p + 1)) := by
  intro hh hlt
  have e1 : 2 ^ (p + 2) * hh + (2 ^ a - 1 + 2 ^ p) = 2 ^ (p + 1) * (2 * hh) + 2 ^ p + (2 ^ a - 1) := by
    rw [pow_succ 2 (p + 1)]; ring
  rw [e1] at hlt ⊢
  rw [coolest_step_run a p (2 * hh) hap hlt, if_neg (by omega)]
  rw [pow_succ 2 (p + 1)]; ring

/-- Pattern `1^a 0^(p-a) 1 1`: the block is rotated into `1^(a+1) 0^(p-a) 1`. -/
theorem stepsTo_odd (a p : Nat) (hap : a < p) :
    StepsTo (p + 2) (2 ^ a - 1 + 2 ^ p + 2 ^ (p + 1)) (2 ^ (a + 1) - 1 + 2 ^ (p + 1)) := by
  intro hh hlt
  have e1 : 2 ^ (p + 2) * hh + (2 ^ a - 1 + 2 ^ p + 2 ^ (p + 1))
      = 2 ^ (p + 1) * (2 * hh + 1) + 2 ^ p + (2 ^ a - 1) := by
    rw [pow_succ 2 (p + 1)]; ring
  rw [e1] at hlt ⊢
  rw [coolest_step_run a p (2 * hh + 1) hap hlt, if_pos (by omega)]
  rw [pow_succ 2 (p + 1)]; ring

theorem coolT_getLast_mem (m t x : Nat) (hx : x ∈ (coolT m t).getLast?) :
    0 < t ∧ t < m ∧ x = 2 ^ (t - 1) - 1 + 2 ^ (m - 1) := by
  by_cases h0 : t = 0
  · subst h0; rw [coolT_zero_right] at hx; simp at hx
  by_cases h1 : m ≤ t
  · rw [coolT_of_le m t h1] at hx; simp at hx
  have := (coolT_ends m t (by omega) (by omega)).2
  rw [this] at hx
  simp only [Option.mem_def, Option.some.injEq] at hx
  exact ⟨by omega, by omega, hx.symm⟩

theorem coolT_head_mem (m t x : Nat) (hx : x ∈ (coolT m t).head?) :
    0 < t ∧ t < m ∧ x = 2 ^ (t + 1) - 2 := by
  by_cases h0 : t = 0
  · subst h0; rw [coolT_zero_right] at hx; simp at hx
  by_cases h1 : m ≤ t
  · rw [coolT_of_le m t h1] at hx; simp at hx
  have := (coolT_ends m t (by omega) (by omega)).1
  rw [this] at hx
  simp only [Option.mem_def, Option.some.injEq] at hx
  exact ⟨by omega, by omega, hx.symm⟩

/-- Consecutive entries of the cool-lex list follow each other under
`coolest_step`, whatever stands above position `m`. -/
theorem coolT_chain (m : Nat) : ∀ t, List.Chain' (StepsTo m) (coolT m t) := by
  induction m with
  | zero => intro t; simp [coolT]
  | succ m ih =>
    intro t
    cases t with
    | zero => simp [coolT]
    | succ t =>
      by_cases h : t < m
      · rw [coolT_succ m t h]
        have hA : List.Chain' (StepsTo (m + 1)) (coolT m (t + 1)) :=
          (ih (t + 1)).imp (stepsTo_mono m)
        have hB : List.Chain' (StepsTo (m + 1)) ((coolT m t).map (fun x => x + 2 ^ m)) :=
          List.chain'_map_of_chain' _ (stepsTo_shift m) (ih t)
        obtain ⟨p, rfl⟩ : ∃ p, m = p + 1 := ⟨m - 1, by omega⟩
        refine (hA.append hB ?_).append (List.chain'_singleton _) ?_
        · intro x hx y hy
          obtain ⟨_, h2, rfl⟩ := coolT_getLast_mem _ _ _ hx
          rw [List.head?_map] at hy
          simp only [Option.mem_def, Option.map_eq_some'] at hy
          obtain ⟨y0, hy0, rfl⟩ := hy
          obtain ⟨_, _, rfl⟩ := coolT_head_mem _ _ _ hy0
          simpa using stepsTo_even t p (by omega)
        · intro x hx y hy
          simp only [List.head?_cons, Option.mem_def, Option.some.injEq] at hy
          subst hy
          rw [List.getLast?_append, List.getLast?_map] at hx
          by_cases h0 : t = 0
          · subst h0
            rw [coolT_zero_right] at hx
            simp only [List.getLast?_nil, Option.map_none', Option.none_or] at hx
            obtain ⟨_, h2, rfl⟩ := coolT_getLast_mem _ _ _ hx
            simpa using stepsTo_even 0 p (by omega)
          · have hl := (coolT_ends (p + 1) t (by omega) h).2
            rw [hl] at hx
            simp only [Option.map_some', Option.or_some, Option.mem_def, Option.some.injEq,
              Option.or] at hx
            subst hx
            have := stepsTo_odd (t - 1) p (by omega)
            rw [show t - 1 + 1 = t by omega] at this
            simpa using this
      · rw [coolT_of_le _ _ (by omega)]; exact List.chain'_nil

theorem isComb_zero (m : Nat) (l : List Nat) : IsComb m 0 l ↔ l = [] := by
  constructor
  · intro h; exact List.length_eq_zero.mp h.1
  · intro h; subst h; exact ⟨rfl, List.sorted_nil, by simp⟩

theorem isComb_length_le (m t : Nat) (l : List Nat) (h : IsComb m t l) : t ≤ m := by
  obtain ⟨h1, h2, h3⟩ := h
  have hnd : l.Nodup := h2.imp (fun hab => Nat.ne_of_lt hab)
  have hsub : l.toFinset ⊆ Finset.range m := by
    intro x hx
    rw [List.mem_toFinset] at hx
    exact Finset.mem_range.mpr (h3 x hx)
  have := Finset.card_le_card hsub
  rw [List.toFinset_card_of_nodup hnd, Finset.card_range] at this
  omega


theorem isComb_succ (m t : Nat) (l : List Nat) :
    IsComb (m + 1) (t + 1) l ↔
      IsComb m (t + 1) l ∨ ∃ l1, IsComb m t l1 ∧ l = l1 ++ [m] := by
  constructor
  · rintro ⟨h1, h2, h3⟩
    have hne : l ≠ [] := by
      intro h; subst h; simp at h1
    obtain ⟨l1, x, rfl⟩ : ∃ l1 x, l = l1 ++ [x] :=
      ⟨l.dropLast, l.getLast hne, (List.dropLast_append_getLast hne).symm⟩
    have hs := List.pairwise_append.mp h2
    have hx : x < m + 1 := h3 x (by simp)
    have hlen : l1.length = t := by simpa using h1
    have hl1 : ∀ y ∈ l1, y < x := fun y hy => hs.2.2 y hy x (by simp)
    by_cases hxm : x = m
    · subst hxm
      exact Or.inr ⟨l1, ⟨hlen, hs.1, hl1⟩, rfl⟩
    · left
      refine ⟨h1, h2, ?_⟩
      intro i hi
      rw [List.mem_append, List.mem_singleton] at hi
      rcases hi with hi | hi
      · have := hl1 i hi; omega
      · omega
  · rintro (⟨h1, h2, h3⟩ | ⟨l1, ⟨h1, h2, h3⟩, rfl⟩)
    · exact ⟨h1, h2, fun i hi => Nat.lt_succ_of_lt (h3 i hi)⟩
    · refine ⟨by simp [h1], ?_, ?_⟩
      · refine List.pairwise_append.mpr ⟨h2, List.pairwise_singleton _ _, ?_⟩
        intro a ha b hb
        rw [List.mem_singleton] at hb
        subst hb
        exact h3 a ha
      · intro i hi
        rw [List.mem_append, List.mem_singleton] at hi
        rcases hi with hi | hi
        · exact Nat.lt_succ_of_lt (h3 i hi)
        · omega

theorem enumerates_zero (m : Nat) : Enumerates m 0 [[]] := by
  refine ⟨List.nodup_singleton _, ?_⟩
  intro l
  rw [isComb_zero, List.mem_singleton]

theorem enumerates_nil (m t : Nat) (h : m < t) : Enumerates m t [] := by
  refine ⟨List.nodup_nil, ?_⟩
  intro l
  constructor
  · intro hl; simp at hl
  · intro hl
    have := isComb_length_le m t l hl
    omega

/-- Pascal step for enumerations: the subsets without `m` followed (in any
arrangement) by the smaller subsets extended by `m`. -/
theorem enumerates_succ (m t : Nat) (A B L : List (List Nat))
    (hA : Enumerates m (t + 1) A) (hB : Enumerates m t B)
    (hL : L.Perm (A ++ B.map (fun l => l ++ [m]))) :
    Enumerates (m + 1) (t + 1) L := by
  constructor
  · rw [hL.nodup_iff, List.nodup_append]
    refine ⟨hA.1, ?_, ?_⟩
    · exact hB.1.map (fun a b hab => List.append_cancel_right hab)
    · intro l h1 h2
      rw [List.mem_map] at h2
      obtain ⟨l1, _, rfl⟩ := h2
      have := ((hA.2 _).mp h1).2.2 m (by simp)
      omega
  · intro l
    rw [hL.mem_iff, List.mem_append, List.mem_map, isComb_succ, hA.2]
    constructor
    · rintro (h | ⟨l1, h1, rfl⟩)
      · exact Or.inl h
      · exact Or.inr ⟨l1, (hB.2 _).mp h1, rfl⟩
    · rintro (h | ⟨l1, h1, rfl⟩)
      · exact Or.inl h
      · exact Or.inr ⟨l1, (hB.2 _).mpr h1, rfl⟩

/-- Two enumerations of the same subsets are permutations of each other. -/
theorem enumerates_perm (m t : Nat) (L1 L2 : List (List Nat))
    (h1 : Enumerates m t L1) (h2 : Enumerates m t L2) : L1.Perm L2 := by
  rw [List.perm_ext_iff_of_nodup h1.1 h2.1]
  intro l
  rw [h1.2, h2.2]

theorem bitsBelow_succ_of_lt (m x : Nat) (hx : x < 2 ^ m) :
    bitsBelow (m + 1) x = bitsBelow m x := by
  unfold bitsBelow
  rw [List.range_succ, List.filter_append]
  have : x.testBit m = false := Nat.testBit_lt_two_pow hx
  simp [this]

theorem bitsBelow_succ_add (m x : Nat) (hx : x < 2 ^ m) :
    bitsBelow (m + 1) (x + 2 ^ m) = bitsBelow m x ++ [m] := by
  unfold bitsBelow
  rw [List.range_succ, List.filter_append]
  have e : x + 2 ^ m = 2 ^ m * 1 + x := by ring
  have h1 : (x + 2 ^ m).testBit m = true := by
    rw [e, Nat.testBit_mul_pow_two_add 1 hx]; simp
  have h2 : ∀ i ∈ List.range m, (x + 2 ^ m).testBit i = x.testBit i := by
    intro i hi
    rw [List.mem_range] at hi
    rw [e, Nat.testBit_mul_pow_two_add 1 hx, if_pos hi]
  congr 1
  · exact List.filter_congr (fun i hi => by rw [h2 i hi])
  · simp [h1]

theorem bitsBelow_of_le (m n x : Nat) (hx : x < 2 ^ m) (hmn : m ≤ n) :
    bitsBelow n x = bitsBelow m x := by
  induction n with
  | zero =>
    have : m = 0 := by omega
    subst this; rfl
  | succ n ih =>
    rcases Nat.lt_or_eq_of_le hmn with h | h
    · have h2 : x < 2 ^ n := lt_of_lt_of_le hx (Nat.pow_le_pow_right (by norm_num) (by omega))
      rw [bitsBelow_succ_of_lt n x h2, ih (by omega)]
    · rw [h]

theorem coolList_perm (m t : Nat) (ht : t ≤ m) :
    (coolList (m + 1) (t + 1)).Perm
      ((if t < m then coolList m (t + 1) else []) ++ (coolList m t).map (fun x => x + 2 ^ m)) := by
  unfold coolList
  by_cases h : t < m
  · rw [coolT_succ m t h, if_pos h]
    simp only [List.map_cons, List.cons_append, List.append_assoc]
    refine List.Perm.cons _ (List.Perm.append_left _ ?_)
    exact List.perm_append_comm.trans (List.Perm.of_eq (List.singleton_append))
  · have hm : t = m := by omega
    subst hm
    rw [coolT_of_le _ _ (le_refl _), coolT_of_le _ _ (le_refl _), if_neg h]
    simp only [List.nil_append, List.map_cons, List.map_nil]
    have : 2 ^ (t + 1) - 1 = 2 ^ t - 1 + 2 ^ t := by
      have : 2 ^ (t + 1) = 2 * 2 ^ t := by rw [pow_succ]; ring
      have : 0 < 2 ^ t := Nat.two_pow_pos t
      omega
    rw [this]

theorem coolList_lt (m : Nat) : ∀ t, t ≤ m → ∀ x ∈ coolList m t, x < 2 ^ m := by
  induction m with
  | zero =>
    intro t ht x hx
    have : t = 0 := by omega
    subst this
    simp [coolList, coolT] at hx
    omega
  | succ m ih =>
    intro t ht x hx
    have hpow : 2 ^ (m + 1) = 2 * 2 ^ m := by rw [pow_succ]; ring
    have hpos : 0 < 2 ^ m := Nat.two_pow_pos m
    cases t with
    | zero =>
      simp [coolList, coolT_zero_right] at hx
      omega
    | succ t =>
      rw [(coolList_perm m t (by omega)).mem_iff, List.mem_append, List.mem_map] at hx
      rcases hx with hx | ⟨y, hy, rfl⟩
      · by_cases h : t < m
        · rw [if_pos h] at hx
          have := ih (t + 1) (by omega) x hx
          omega
        · rw [if_neg h] at hx; simp at hx
      · have := ih t (by omega) y hy
        omega

/-- The index lists decoded from the cool-lex list are the `t`-element subsets
of `{0, ..., m-1}`, each exactly once. -/
theorem coolList_enumerates (m : Nat) :
    ∀ t, t ≤ m → Enumerates m t ((coolList m t).map (bitsBelow m)) := by
  induction m with
  | zero =>
    intro t ht
    have : t = 0 := by omega
    subst this
    exact enumerates_zero 0
  | succ m ih =>
    intro t ht
    cases t with
    | zero =>
      have : (coolList (m + 1) 0).map (bitsBelow (m + 1)) = [[]] := by
        simp [coolList, coolT_zero_right, bitsBelow]
      rw [this]
      exact enumerates_zero _
    | succ t =>
      have htm : t ≤ m := by omega
      refine enumerates_succ m t
        ((if t < m then coolList m (t + 1) else []).map (bitsBelow m))
        ((coolList m t).map (bitsBelow m)) _ ?_ (ih t htm) ?_
      · by_cases h : t < m
        · rw [if_pos h]; exact ih (t + 1) (by omega)
        · rw [if_neg h]; exact enumerates_nil m (t + 1) (by omega)
      · refine ((coolList_perm m t htm).map _).trans ?_
        rw [List.map_append, List.map_map, List.map_map]
        refine List.Perm.of_eq ?_
        congr 1
        · apply List.map_congr_left
          intro x hx
          by_cases h : t < m
          · rw [if_pos h] at hx
            exact bitsBelow_succ_of_lt m x (coolList_lt m (t + 1) (by omega) x hx)
          · rw [if_neg h] at hx; simp at hx
        · apply List.map_congr_left
          intro x hx
          exact bitsBelow_succ_add m x (coolList_lt m t htm x hx)

theorem land_two_pow_ne_zero (R i : Nat) : R &&& 2 ^ i ≠ 0 ↔ R.testBit i = true := by
  constructor
  · intro h
    by_contra hb
    apply h
    apply Nat.eq_of_testBit_eq
    intro j
    rw [Nat.testBit_and, Nat.testBit_two_pow, Nat.zero_testBit]
    by_cases hij : i = j
    · subst hij; simp [hb]
    · simp [hij]
  · intro h h0
    have : (R &&& 2 ^ i).testBit i = true := by
      rw [Nat.testBit_and, h, Nat.testBit_two_pow_self]; rfl
    rw [h0, Nat.zero_testBit] at this
    exact Bool.noConfusion this

theorem range'_filter_cons (R i : Nat) (hi : i < 31) (hb : R.testBit i = true) :
    (List.range' i (31 - i)).filter (fun j => R.testBit j)
      = i :: (List.range' (i + 1) (31 - (i + 1))).filter (fun j => R.testBit j) := by
  have : 31 - i = (31 - (i + 1)) + 1 := by omega
  rw [this, List.range'_succ, List.filter_cons_of_pos (by simpa using hb)]

theorem range'_filter_skip (R i : Nat) (hi : i < 31) (hb : ¬ R.testBit i = true) :
    (List.range' i (31 - i)).filter (fun j => R.testBit j)
      = (List.range' (i + 1) (31 - (i + 1))).filter (fun j => R.testBit j) := by
  have : 31 - i = (31 - (i + 1)) + 1 := by omega
  rw [this, List.range'_succ, List.filter_cons_of_neg (by simpa using hb)]

theorem take_succ_set (l : List Nat) (o v : Nat) (h : o < l.length) :
    (l.set o v).take (o + 1) = l.take o ++ [v] := by
  rw [List.set_eq_take_cons_drop v h]
  have hl : (l.take o).length = o := List.length_take_of_le (by omega)
  rw [List.take_append_eq_append_take, hl, List.take_of_length_le (by omega)]
  simp

/-- The `for` loop of `visit`, entered at position `i` with `ki` slots of the
row already written, fills the rest of the row with the next set bits. -/
theorem visit_loop_spec (R z : Nat) :
    ∀ m i ki (c : combination), m + i = 64 → ki ≤ z →
      z - ki ≤ ((List.range' i (31 - i)).filter (fun j => R.testBit j)).length →
      c.n * z + z ≤ c.tab.length → c.tab.length < 2 ^ 32 →
      visit_loop R z m i ki c = some { c with tab :=
        (c.tab.take (c.n * z + ki)
          ++ ((List.range' i (31 - i)).filter (fun j => R.testBit j)).take (z - ki)
          ++ c.tab.drop (c.n * z + z)) } := by
  intro m
  induction m with
  | zero =>
    intro i ki c hi hki hbits hcap hlen
    have h31 : 31 - i = 0 := by omega
    rw [h31] at hbits ⊢
    simp only [List.range'_zero, List.filter_nil, List.length_nil, Nat.le_zero_eq] at hbits
    have : ki = z := by omega
    subst this
    simp [visit_loop]
  | succ m ih =>
    intro i ki c hi hki hbits hcap hlen
    unfold visit_loop
    by_cases hk : ki < z
    · have hi31 : i < 31 := by
        by_contra h
        have h31 : 31 - i = 0 := by omega
        rw [h31] at hbits
        simp at hbits
        omega
      rw [if_pos ⟨hk, by omega⟩]
      have hB : BITISET R i = some (R &&& 2 ^ i) := by
        simp [BITISET, shl_int, show i ≤ 30 by omega]
      rw [hB]
      simp only
      by_cases hb : R.testBit i = true
      · rw [if_pos ((land_two_pow_ne_zero R i).mpr hb)]
        have hidx : (c.n * z + ki) % 2 ^ 32 = c.n * z + ki := Nat.mod_eq_of_lt (by omega)
        have hst : store c.tab ((c.n * z + ki) % 2 ^ 32) i
            = some (c.tab.set (c.n * z + ki) i) := by
          rw [hidx]
          unfold store
          rw [if_pos (by omega), Nat.mod_eq_of_lt (by omega)]
        rw [hst]
        simp only
        rw [range'_filter_cons R i hi31 hb] at hbits ⊢
        rw [ih (i + 1) (ki + 1) _ (by omega) (by omega)
          (by simp only [List.length_cons] at hbits; omega)
          (by simpa using hcap) (by simpa using hlen)]
        congr 2
        have hz : z - ki = (z - (ki + 1)) + 1 := by omega
        rw [hz, List.take_succ_cons]
        simp only
        rw [show c.n * z + (ki + 1) = c.n * z + ki + 1 by omega,
          take_succ_set c.tab _ i (by omega),
          List.drop_set_of_lt i c.tab (by omega : c.n * z + ki < c.n * z + z)]
        simp
      · rw [if_neg (by rw [land_two_pow_ne_zero]; exact hb)]
        rw [range'_filter_skip R i hi31 hb] at hbits ⊢
        exact ih (i + 1) ki c (by omega) hki hbits hcap hlen
    · have : ki = z := by omega
      subst this
      rw [if_neg (by omega)]
      simp

theorem visit_spec (R z : Nat) (c : combination)
    (hbits : z ≤ (bitsBelow 31 R).length)
    (hcap : c.n * z + z ≤ c.tab.length) (hlen : c.tab.length < 2 ^ 32) :
    visit R z c = some { c with n := (c.n + 1) % 2 ^ 32, tab :=
      (c.tab.take (c.n * z) ++ decode z R ++ c.tab.drop (c.n * z + z)) } := by
  have h0 : List.range' 0 (31 - 0) = List.range 31 := by
    rw [List.range_eq_range']
  have := visit_loop_spec R z 64 0 0 c rfl (Nat.zero_le z)
    (by rw [h0]; simpa [bitsBelow] using hbits) hcap hlen
  unfold visit
  rw [this, h0]
  rfl

theorem length_decode (z R : Nat) (h : z ≤ (bitsBelow 31 R).length) :
    (decode z R).length = z := by
  unfold decode
  rw [List.length_take]
  omega

theorem length_flatten_const (z : Nat) (M : List (List Nat)) (h : ∀ r ∈ M, r.length = z) :
    M.flatten.length = M.length * z := by
  induction M with
  | nil => simp
  | cons r M ih =>
    rw [List.flatten_cons, List.length_append, ih (fun x hx => h x (List.mem_cons_of_mem _ hx)),
      h r (List.mem_cons_self _ _), List.length_cons]
    ring

theorem row_of_flatten (z : Nat) (rest : List Nat) :
    ∀ (M : List (List Nat)), (∀ r ∈ M, r.length = z) → ∀ i (hi : i < M.length),
      ((M.flatten ++ rest).drop (i * z)).take z = M[i] := by
  intro M
  induction M with
  | nil => intro _ i hi; simp at hi
  | cons r M ih =>
    intro h i hi
    have hr : r.length = z := h r (List.mem_cons_self _ _)
    cases i with
    | zero =>
      simp only [Nat.zero_mul, List.drop_zero, List.flatten_cons, List.append_assoc,
        List.getElem_cons_zero]
      exact List.take_left' hr
    | succ j =>
      have e : (j + 1) * z = r.length + j * z := by rw [hr]; ring
      rw [List.flatten_cons, List.append_assoc, e, List.drop_append]
      simp only [List.getElem_cons_succ]
      exact ih (fun x hx => h x (List.mem_cons_of_mem _ hx)) j (by simpa using hi)

/-- Rows read back from a block that starts with the concatenation of rows of
length `z`. -/
theorem rows_of_flatten (k z n : Nat) (M : List (List Nat)) (rest : List Nat)
    (h : ∀ r ∈ M, r.length = z) (hn : n = M.length) :
    rows { k := k, z := z, n := n, tab := M.flatten ++ rest } = M := by
  subst hn
  unfold rows
  apply List.ext_getElem
  · simp
  · intro i h1 h2
    simp only [List.getElem_map, List.getElem_range]
    exact row_of_flatten z rest M h i h2

/-- The state of the loop of `the_coolest` after `i` passes along a list of
registers that follow each other, the first `i` of which pass the guard: the
register is entry `i` and the first `i` rows of the buffer hold the decoded
registers. -/
theorem coolest_iter_spec (z R2 R : Nat) (T : List Nat) (c0 : combination)
    (hchain : List.Chain' (fun a b => coolest_step a = b) (R :: T))
    (hn : c0.n = 0) (hlen : c0.tab.length < 2 ^ 32) :
    ∀ i (hi : i < (R :: T).length),
      (∀ x ∈ (R :: T).take i, x &&& R2 = 0 ∧ z ≤ (bitsBelow 31 x).length) →
      i * z ≤ c0.tab.length → i < 2 ^ 32 →
      coolest_iter z R2 i (R, c0) =
        some ((R :: T)[i], { c0 with n := i, tab :=
          ((((R :: T).take i).map (decode z)).flatten ++ c0.tab.drop (i * z)) }) := by
  intro i
  induction i with
  | zero =>
    intro _ _ _ _
    simp only [coolest_iter, List.getElem_cons_zero, List.take_zero, List.map_nil,
      List.flatten_nil, Nat.zero_mul, List.drop_zero, List.nil_append]
    rw [← hn]
  | succ i ih =>
    intro hi hgb hcap hN
    have hi0 : i < (R :: T).length := by omega
    have htk : (R :: T).take (i + 1) = (R :: T).take i ++ [(R :: T)[i]] := by
      rw [List.take_succ, List.getElem?_eq_getElem hi0]; rfl
    have hmem : (R :: T)[i] ∈ (R :: T).take (i + 1) := by
      rw [htk]; exact List.mem_append_right _ (List.mem_singleton_self _)
    have hgb0 : ∀ x ∈ (R :: T).take i, x &&& R2 = 0 ∧ z ≤ (bitsBelow 31 x).length := by
      intro x hx
      apply hgb
      rw [htk]
      exact List.mem_append_left _ hx
    have hrows : ∀ r ∈ ((R :: T).take i).map (decode z), r.length = z := by
      intro r hr
      rw [List.mem_map] at hr
      obtain ⟨x, hx, rfl⟩ := hr
      exact length_decode z x (hgb0 x hx).2
    have hF : (((R :: T).take i).map (decode z)).flatten.length = i * z := by
      rw [length_flatten_const z _ hrows, List.length_map, List.length_take]
      congr 1
      omega
    have hstep : coolest_step (R :: T)[i] = (R :: T)[i + 1] := by
      have := (List.chain'_iff_get.mp hchain) i (by omega)
      simpa using this
    have hiz : (i + 1) * z = i * z + z := by ring
    unfold coolest_iter
    rw [ih hi0 hgb0 (by omega) (by omega)]
    simp only [Option.some_bind]
    rw [if_pos (hgb _ hmem).1]
    unfold coolest_pass
    simp only
    rw [visit_spec _ z _ (hgb _ hmem).2
      (by simp only [List.length_append, hF, List.length_drop]; omega)
      (by simp only [List.length_append, hF, List.length_drop]; omega)]
    simp only [Option.map_some', hstep]
    congr 3
    · exact Nat.mod_eq_of_lt (by omega)
    · rw [List.take_left' hF, htk]
      simp only [List.map_append, List.map_cons, List.map_nil,
        List.flatten_append, List.flatten_cons, List.flatten_nil, List.append_nil,
        List.append_assoc]
      congr 2
      have e : i * z + z = (((R :: T).take i).map (decode z)).flatten.length + z := by rw [hF]
      rw [e, List.drop_append, List.drop_drop, hiz]

theorem coolest_iter_succ (k R2 : Nat) : ∀ i (s : Nat × combination),
    coolest_iter k R2 (i + 1) s =
      (if s.1 &&& R2 = 0 then coolest_pass k s else none).bind (coolest_iter k R2 i) := by
  intro i
  induction i with
  | zero =>
    intro s
    simp only [coolest_iter, Option.some_bind]
    cases (if s.1 &&& R2 = 0 then coolest_pass k s else none) <;> rfl
  | succ i ih =>
    intro s
    show (coolest_iter k R2 (i + 1) s).bind _ = _
    rw [ih s, Option.bind_assoc]
    rfl

/-- When the state after `i` passes fails the guard, the loop of `the_coolest`
returns its buffer, for any fuel above `i`. -/
theorem coolest_loop_of_iter (k R2 : Nat) : ∀ i (s s1 : Nat × combination),
    coolest_iter k R2 i s = some s1 → s1.1 &&& R2 ≠ 0 →
    ∀ fuel, i < fuel → coolest_loop k R2 fuel s = some s1.2 := by
  intro i
  induction i with
  | zero =>
    intro s s1 h hg fuel hf
    obtain ⟨f, rfl⟩ : ∃ f, fuel = f + 1 := ⟨fuel - 1, by omega⟩
    simp only [coolest_iter, Option.some.injEq] at h
    subst h
    unfold coolest_loop
    rw [if_neg hg]
  | succ i ih =>
    intro s s1 h hg fuel hf
    obtain ⟨f, rfl⟩ : ∃ f, fuel = f + 1 := ⟨fuel - 1, by omega⟩
    rw [coolest_iter_succ] at h
    unfold coolest_loop
    by_cases hgs : s.1 &&& R2 = 0
    · rw [if_pos hgs] at h ⊢
      cases hp : coolest_pass k s with
      | none => rw [hp] at h; simp at h
      | some s2 =>
        rw [hp] at h
        simp only [Option.some_bind] at h ⊢
        exact ih s2 s1 h hg f (by omega)
    · rw [if_neg hgs] at h
      simp at h

theorem land_two_pow_of_lt (x k : Nat) (h : x < 2 ^ k) : x &&& 2 ^ k = 0 := by
  by_contra hne
  have := (land_two_pow_ne_zero x k).mp hne
  rw [Nat.testBit_lt_two_pow h] at this
  exact Bool.noConfusion this

theorem land_two_pow_add (x k : Nat) (h : x < 2 ^ k) : (x + 2 ^ k) &&& 2 ^ k ≠ 0 := by
  rw [land_two_pow_ne_zero]
  have e : x + 2 ^ k = 2 ^ k * 1 + x := by ring
  rw [e, Nat.testBit_mul_pow_two_add 1 h]
  simp

/-- The registers met by the loop of `the_coolest` for `(k, z)`: the cool-lex
list followed by the register `0 1^(z-1) 0^(k-z) 1` that has the guard bit set. -/
theorem coolList_chain (k z : Nat) (hz : 1 ≤ z) (hzk : z ≤ k) (hk : k ≤ 30) :
    List.Chain' (fun a b => coolest_step a = b)
      ((2 ^ z - 1) :: (coolT k z ++ [2 ^ z - 2 + 2 ^ k])) := by
  have hk63 : (2:Nat) ^ k < 2 ^ 63 := Nat.pow_lt_pow_right (by norm_num) (by omega)
  have hzk2 : (2:Nat) ^ z ≤ 2 ^ k := Nat.pow_le_pow_right (by norm_num) hzk
  have hz2 : 2 ≤ 2 ^ z := by
    have : 2 ^ 1 ≤ 2 ^ z := Nat.pow_le_pow_right (by norm_num) hz
    simpa using this
  have hT : List.Chain' (fun a b => coolest_step a = b) (coolT k z) := by
    refine (List.Chain'.iff_mem.mp (coolT_chain k z)).imp ?_
    rintro a b ⟨ha, _, hab⟩
    have hlt : a < 2 ^ k := coolList_lt k z hzk a (List.mem_cons_of_mem _ ha)
    have := hab 0 (by omega)
    simpa using this
  refine List.Chain'.cons' (hT.append (List.chain'_singleton _) ?_) ?_
  · intro x hx y hy
    simp only [List.head?_cons, Option.mem_def, Option.some.injEq] at hy
    subst hy
    obtain ⟨_, h2, rfl⟩ := coolT_getLast_mem _ _ _ hx
    obtain ⟨p, rfl⟩ : ∃ p, k = p + 1 := ⟨k - 1, by omega⟩
    obtain ⟨a, rfl⟩ : ∃ a, z = a + 1 := ⟨z - 1, by omega⟩
    have := stepsTo_even a p (by omega) 0 (by
      simp only [Nat.mul_zero, Nat.zero_add, Nat.add_sub_cancel]
      have : 2 ^ (a + 1) = 2 * 2 ^ a := by rw [pow_succ]; ring
      have : 2 ^ (p + 1) = 2 * 2 ^ p := by rw [pow_succ]; ring
      have : 0 < 2 ^ a := Nat.two_pow_pos a
      omega)
    simpa using this
  · intro y hy
    rw [coolest_step_low_ones z (by omega)]
    rw [List.head?_append] at hy
    by_cases h : z < k
    · rw [(coolT_ends k z (by omega) h).1] at hy
      simp only [Option.or_some, Option.or, Option.mem_def, Option.some.injEq] at hy
      subst hy
      rw [pow_succ]
      omega
    · have : z = k := by omega
      subst this
      rw [coolT_of_le z z (le_refl _)] at hy
      simp only [List.head?_nil, List.head?_cons, Option.none_or, Option.mem_def, Option.some.injEq] at hy
      subst hy
      omega

theorem coolList_length (k z : Nat) (hzk : z ≤ k) : (coolList k z).length = Nat.choose k z := by
  unfold coolList
  rw [List.length_cons, coolT_length]
  have := Nat.choose_pos hzk
  omega

theorem coolList_bits (k z : Nat) (hzk : z ≤ k) (x : Nat) (hx : x ∈ coolList k z) :
    IsComb k z (bitsBelow k x) :=
  ((coolList_enumerates k z hzk).2 _).mp (List.mem_map_of_mem _ hx)

theorem coolList_decode (k z : Nat) (hzk : z ≤ k) (hk : k ≤ 30) (x : Nat)
    (hx : x ∈ coolList k z) : decode z x = bitsBelow k x := by
  unfold decode
  rw [bitsBelow_of_le k 31 x (coolList_lt k z hzk x hx) (by omega)]
  exact List.take_of_length_le (le_of_eq (coolList_bits k z hzk x hx).1)

theorem new_comb_eq (k z : Nat) (hzk : z ≤ k) (hk : k ≤ 30) :
    new_comb k z = { k := k, z := z, n := 0, tab := List.replicate (Nat.choose k z * z) 0 } := by
  unfold new_comb
  rw [binom_eq_choose k z hzk hk, Nat.mod_eq_of_lt (choose_le_buffer k z hk)]

theorem coolest_init_eq (k z : Nat) (hzk : z ≤ k) (hk : k ≤ 30) :
    coolest_init k z = some (2 ^ k, 2 ^ z - 1) := by
  unfold coolest_init
  have e : ((k + (2 ^ 64 - z)) % 2 ^ 64 + z) % 2 ^ 64 = k := by omega
  simp only [e, shl_int]
  rw [if_pos hk, if_pos (by omega)]

theorem the_coolest_eq (fuel k z : Nat) (c : combination) (hzk : z ≤ k) (hk : k ≤ 30) :
    the_coolest fuel k z c = coolest_loop z (2 ^ k) fuel (2 ^ z - 1, c) := by
  unfold the_coolest
  rw [coolest_init_eq k z hzk hk]

/-- The states of the loop of `the_coolest` on `(k, z)`: after `i` passes the
register is entry `i` of the cool-lex list (or the closing register) and the
buffer holds the first `i` decoded rows. -/
theorem coolest_states (k z : Nat) (hz : 1 ≤ z) (hzk : z ≤ k) (hk : k ≤ 30) :
    ∀ i (hi : i < (coolList k z ++ [2 ^ z - 2 + 2 ^ k]).length),
      coolest_iter z (2 ^ k) i (2 ^ z - 1, new_comb k z) =
        some ((coolList k z ++ [2 ^ z - 2 + 2 ^ k])[i], { k := k, z := z, n := i, tab :=
          ((((coolList k z).take i).map (bitsBelow k)).flatten
            ++ List.replicate ((Nat.choose k z - i) * z) 0) }) := by
  intro i hi
  have hN := coolList_length k z hzk
  have hcb := choose_le_buffer k z hk
  have hiN : i ≤ Nat.choose k z := by
    rw [List.length_append, hN] at hi
    simpa using Nat.lt_succ_iff.mp hi
  have hNz : Nat.choose k z ≤ Nat.choose k z * z := Nat.le_mul_of_pos_right _ hz
  have hizle : i * z ≤ Nat.choose k z * z := Nat.mul_le_mul_right z hiN
  have e0 : coolList k z ++ [2 ^ z - 2 + 2 ^ k]
      = (2 ^ z - 1) :: (coolT k z ++ [2 ^ z - 2 + 2 ^ k]) := rfl
  have htake : (coolList k z ++ [2 ^ z - 2 + 2 ^ k]).take i = (coolList k z).take i := by
    rw [List.take_append_of_le_length (by omega)]
  have hspec := coolest_iter_spec z (2 ^ k) (2 ^ z - 1) (coolT k z ++ [2 ^ z - 2 + 2 ^ k])
    (new_comb k z) (coolList_chain k z hz hzk hk) rfl
    (by rw [new_comb_eq k z hzk hk]; simpa using hcb) i (by rw [← e0]; exact hi)
    (by
      intro x hx
      rw [← e0, htake] at hx
      have hx2 := List.mem_of_mem_take hx
      have hlt := coolList_lt k z hzk x hx2
      refine ⟨land_two_pow_of_lt x k hlt, ?_⟩
      rw [bitsBelow_of_le k 31 x hlt (by omega), (coolList_bits k z hzk x hx2).1])
    (by rw [new_comb_eq k z hzk hk]; simpa using hizle)
    (by omega)
  simp only [← e0] at hspec
  rw [hspec, htake]
  congr 2
  rw [new_comb_eq k z hzk hk]
  simp only [combination.mk.injEq, true_and]
  congr 1
  · congr 1
    apply List.map_congr_left
    intro x hx
    exact coolList_decode k z hzk hk x (List.mem_of_mem_take hx)
  · rw [List.drop_replicate, Nat.sub_mul]

/-- Result of `gen_comb_coolest` for `1 ≤ z ≤ k ≤ 30`: `C(k, z)` rows, the
decoded cool-lex list. -/
theorem gen_comb_coolest_eq (k z : Nat) (hz : 1 ≤ z) (hzk : z ≤ k) (hk : k ≤ 30)
    (fuel : Nat) (hf : Nat.choose k z < fuel) :
    gen_comb_coolest fuel k z = some { k := k, z := z, n := Nat.choose k z, tab :=
      ((coolList k z).map (bitsBelow k)).flatten } := by
  have hN := coolList_length k z hzk
  have hlt : Nat.choose k z < (coolList k z ++ [2 ^ z - 2 + 2 ^ k]).length := by
    rw [List.length_append, hN]; simp
  have hst := coolest_states k z hz hzk hk (Nat.choose k z) hlt
  have hlast : (coolList k z ++ [2 ^ z - 2 + 2 ^ k])[Nat.choose k z] = 2 ^ z - 2 + 2 ^ k := by
    rw [List.getElem_append_right (by omega)]
    simp [hN]
  rw [hlast, List.take_of_length_le (by omega)] at hst
  simp only [Nat.sub_self, Nat.zero_mul, List.replicate_zero, List.append_nil] at hst
  unfold gen_comb_coolest
  rw [the_coolest_eq fuel k z _ hzk hk]
  have hzk2 : (2:Nat) ^ z ≤ 2 ^ k := Nat.pow_le_pow_right (by norm_num) hzk
  have hpos : 0 < 2 ^ z := Nat.two_pow_pos z
  exact coolest_loop_of_iter z (2 ^ k) _ _ _ hst
    (land_two_pow_add (2 ^ z - 2) k (by omega)) fuel hf

theorem rows_gen_comb_coolest (k z : Nat) (hzk : z ≤ k) :
    rows { k := k, z := z, n := Nat.choose k z, tab :=
      ((coolList k z).map (bitsBelow k)).flatten } = (coolList k z).map (bitsBelow k) := by
  have := rows_of_flatten k z (Nat.choose k z) ((coolList k z).map (bitsBelow k)) []
    (by
      intro r hr
      rw [List.mem_map] at hr
      obtain ⟨x, hx, rfl⟩ := hr
      exact (coolList_bits k z hzk x hx).1)
    (by rw [List.length_map, coolList_length k z hzk])
  simpa using this

theorem rdList_zero_right (m : Nat) : rdList m 0 = [[]] := by
  cases m <;> rfl

theorem rdList_succ (m t : Nat) :
    rdList (m + 1) (t + 1) = rdList m (t + 1) ++ ((rdList m t).reverse).map (fun l => l ++ [m]) :=
  rfl

theorem rdList_enumerates (m : Nat) : ∀ t, Enumerates m t (rdList m t) := by
  induction m with
  | zero =>
    intro t
    cases t with
    | zero => exact enumerates_zero 0
    | succ t => exact enumerates_nil 0 (t + 1) (by omega)
  | succ m ih =>
    intro t
    cases t with
    | zero => exact enumerates_zero _
    | succ t =>
      refine enumerates_succ m t _ _ _ (ih (t + 1)) (ih t) ?_
      rw [rdList_succ]
      exact List.Perm.append_left _ ((List.reverse_perm _).map _)

theorem rdList_length (m : Nat) : ∀ t, (rdList m t).length = Nat.choose m t := by
  induction m with
  | zero =>
    intro t
    cases t <;> rfl
  | succ m ih =>
    intro t
    cases t with
    | zero => simp [rdList]
    | succ t =>
      rw [rdList_succ, List.length_append, List.length_map, List.length_reverse, ih, ih,
        Nat.choose_succ_succ, Nat.add_comm]

theorem rdList_ends (m : Nat) : ∀ t,
    (t ≤ m → (rdList m t).head? = some (List.range t)) ∧
    (1 ≤ t → t ≤ m → (rdList m t).getLast? = some (List.range (t - 1) ++ [m - 1])) ∧
    (m < t → rdList m t = []) := by
  induction m with
  | zero =>
    intro t
    cases t with
    | zero => exact ⟨fun _ => rfl, fun h => by omega, fun h => by omega⟩
    | succ t => exact ⟨fun h => by omega, fun _ h => by omega, fun _ => rfl⟩
  | succ m ih =>
    intro t
    cases t with
    | zero => exact ⟨fun _ => rfl, fun h => by omega, fun h => by omega⟩
    | succ t =>
      rw [rdList_succ]
      refine ⟨?_, ?_, ?_⟩
      · intro h
        rw [List.head?_append, List.head?_map, List.head?_reverse]
        by_cases h1 : t + 1 ≤ m
        · rw [(ih (t + 1)).1 h1]; rfl
        · have htm : t = m := by omega
          subst htm
          rw [(ih (t + 1)).2.2 (by omega)]
          cases t with
          | zero => rfl
          | succ u =>
            rw [(ih (u + 1)).2.1 (by omega) (le_refl _)]
            simp [List.range_succ]
      · intro _ h
        rw [List.getLast?_append, List.getLast?_map, List.getLast?_reverse,
          (ih t).1 (by omega)]
        simp
      · intro h
        rw [(ih (t + 1)).2.2 (by omega), (ih t).2.2 (by omega)]
        rfl

theorem moveP_symm (par : Nat) (A B : List Nat) (h : MoveP par A B) : MoveP (par + 1) B A := by
  obtain ⟨i, hi | hi⟩ := h
  · exact ⟨i, Or.inr ⟨by omega, hi.2⟩⟩
  · exact ⟨i, Or.inl ⟨by omega, hi.2⟩⟩

theorem rdList_getLast_mem (m t : Nat) (c : List Nat) (hc : c ∈ (rdList m t).getLast?) :
    t ≤ m ∧ (t = 0 ∧ c = [] ∨ 1 ≤ t ∧ c = List.range (t - 1) ++ [m - 1]) := by
  by_cases h : m < t
  · rw [(rdList_ends m t).2.2 h] at hc; simp at hc
  · refine ⟨by omega, ?_⟩
    cases t with
    | zero =>
      rw [rdList_zero_right] at hc
      simp only [List.getLast?_singleton, Option.mem_def, Option.some.injEq] at hc
      exact Or.inl ⟨rfl, hc.symm⟩
    | succ t =>
      rw [(rdList_ends m (t + 1)).2.1 (by omega) (by omega)] at hc
      simp only [Option.mem_def, Option.some.injEq] at hc
      exact Or.inr ⟨by omega, hc.symm⟩

/-- Consecutive entries of the revolving-door list, followed by any larger
entries, differ by a move of the parity of the subset size. -/
theorem rdList_chain (m : Nat) : ∀ t y rest, m ≤ y →
    List.Chain' (fun c d => MoveP t (c ++ y :: rest) (d ++ y :: rest)) (rdList m t) := by
  induction m with
  | zero =>
    intro t y rest _
    cases t with
    | zero => exact List.chain'_singleton _
    | succ t => exact List.chain'_nil
  | succ m ih =>
    intro t y rest hy
    cases t with
    | zero => exact List.chain'_singleton _
    | succ t =>
      rw [rdList_succ]
      refine List.Chain'.append (ih (t + 1) y rest (by omega)) ?_ ?_
      · rw [List.chain'_map, List.chain'_reverse]
        refine (ih t m (y :: rest) (le_refl _)).imp ?_
        intro c d hcd
        have := moveP_symm t _ _ hcd
        simpa [flip, List.append_assoc] using this
      · intro c hc d hd
        obtain ⟨htm, _ | ⟨_, rfl⟩⟩ := rdList_getLast_mem m (t + 1) c hc
        · omega
        rw [List.head?_map, List.head?_reverse] at hd
        simp only [Option.mem_def, Option.map_eq_some'] at hd
        obtain ⟨e, he, rfl⟩ := hd
        refine ⟨t, Or.inl ⟨by omega, m - 1, y, rest, by omega, ?_⟩⟩
        obtain ⟨_, ⟨rfl, rfl⟩ | ⟨h1, rfl⟩⟩ := rdList_getLast_mem m t e he
        · left
          refine ⟨rfl, by simp, ?_⟩
          have : m - 1 + 1 = m := by omega
          simp [this]
        · right
          obtain ⟨p, rfl⟩ : ∃ p, t = p + 1 := ⟨t - 1, by omega⟩
          refine ⟨p, rfl, by omega, ?_, ?_⟩
          · simp [List.range_succ]
          · have : m - 1 + 1 = m := by omega
            simp [this]

theorem rdA_cast (A : List Nat) (n : Nat) : rdA A (n : Int) = A[n]? := by
  unfold rdA
  rw [if_pos (Int.natCast_nonneg n), Int.toNat_natCast]

theorem wrA_cast (A : List Nat) (n : Nat) (v : Int) (h : n < A.length) :
    wrA A (n : Int) v = some (A.set n (toKvalue v)) := by
  unfold wrA
  rw [Int.toNat_natCast, if_pos ⟨Int.natCast_nonneg n, h⟩]

theorem toKvalue_cast (v : Nat) (h : v < 65536) : toKvalue (v : Int) = v := by
  unfold toKvalue
  omega

theorem toShort_small (x : Int) (h1 : -32768 ≤ x) (h2 : x < 32768) : toShort x = x := by
  unfold toShort
  omega

/-- Branch `J < 0` of `next_comb`, for `J = -1` and `A[0] ≥ 1`. -/
theorem next_comb_neg (a : Nat) (tl : List Nat) (ha : 1 ≤ a) (hb : a < 65536) :
    next_comb ⟨a :: tl, -1⟩ = some ⟨(a - 1) :: tl, if a = 1 then 1 else -1⟩ := by
  unfold next_comb
  have h0 : rdA (a :: tl) 0 = some a := by
    have := rdA_cast (a :: tl) 0
    simpa using this
  have hw : wrA (a :: tl) 0 ((a : Int) - 1) = some ((a - 1) :: tl) := by
    have := wrA_cast (a :: tl) 0 ((a : Int) - 1) (by simp)
    rw [show ((0 : Nat) : Int) = 0 from rfl] at this
    rw [this]
    have e : (a : Int) - 1 = ((a - 1 : Nat) : Int) := by omega
    rw [e, toKvalue_cast _ (by omega)]
    rfl
  have h1 : rdA ((a - 1) :: tl) 0 = some (a - 1) := by
    have := rdA_cast ((a - 1) :: tl) 0
    simpa using this
  simp only [show ((-1 : Int) < 0) from by decide, if_true, h0, hw, h1, Option.bind_eq_bind,
    Option.some_bind]
  by_cases h : a = 1
  · subst h; rfl
  · rw [if_neg (by omega), if_neg h]

/-- Branch `A[J+1] == A[J] + 1` of `next_comb`, for `J = n ≥ 0`. -/
theorem next_comb_mid (A : List Nat) (n u : Nat) (hn : n + 1 < A.length) (hn2 : n < 32768)
    (h1 : A[n]? = some u) (h2 : A[n + 1]? = some (u + 1)) (hu : u < 65536) :
    next_comb ⟨A, (n : Int)⟩ =
      some ⟨(A.set (n + 1) u).set n n, if u = n + 1 then toShort ((n : Int) + 2) else n⟩ := by
  unfold next_comb
  have hneg : ¬ ((n : Int) < 0) := by omega
  have e1 : ((n : Int) + 1) = ((n + 1 : Nat) : Int) := by push_cast; rfl
  have r1 : rdA A ((n : Int) + 1) = some (u + 1) := by rw [e1, rdA_cast, h2]
  have r2 : rdA A (n : Int) = some u := by rw [rdA_cast, h1]
  have w1 : wrA A ((n : Int) + 1) (u : Int) = some (A.set (n + 1) u) := by
    rw [e1, wrA_cast _ _ _ hn, toKvalue_cast u hu]
  have w2 : wrA (A.set (n + 1) u) (n : Int) (n : Int) = some ((A.set (n + 1) u).set n n) := by
    rw [wrA_cast _ _ _ (by rw [List.length_set]; omega), toKvalue_cast n (by omega)]
  have r3 : rdA ((A.set (n + 1) u).set n n) ((n : Int) + 1) = some u := by
    rw [e1, rdA_cast, List.getElem?_set_ne (by omega), List.getElem?_set_self hn]
  have r4 : rdA ((A.set (n + 1) u).set n n) (n : Int) = some n := by
    rw [rdA_cast, List.getElem?_set_self (by rw [List.length_set]; omega)]
  simp only [hneg, if_false, r1, r2, w1, w2, r3, r4, Option.bind_eq_bind, Option.some_bind,
    if_true]
  by_cases h : u = n + 1
  · rw [if_pos h, if_pos h]
  · rw [if_neg h, if_neg h]

/-- Branch `else` of `next_comb`, for `J = n ≥ 0`. -/
theorem next_comb_up (A : List Nat) (n u w : Nat) (hn : n + 1 < A.length) (hn2 : n < 32768)
    (h1 : A[n]? = some u) (h2 : A[n + 1]? = some w) (hw : w ≠ u + 1) (hu : u + 1 < 65536) :
    next_comb ⟨A, (n : Int)⟩ =
      some (if 0 < n then ⟨(A.set n (u + 1)).set (n - 1) u, (n : Int) - 2⟩
        else ⟨A.set n (u + 1), (n : Int)⟩) := by
  unfold next_comb
  have hneg : ¬ ((n : Int) < 0) := by omega
  have e1 : ((n : Int) + 1) = ((n + 1 : Nat) : Int) := by push_cast; rfl
  have r1 : rdA A ((n : Int) + 1) = some w := by rw [e1, rdA_cast, h2]
  have r2 : rdA A (n : Int) = some u := by rw [rdA_cast, h1]
  have w1 : wrA A (n : Int) ((u : Int) + 1) = some (A.set n (u + 1)) := by
    rw [wrA_cast _ _ _ (by omega)]
    have : (u : Int) + 1 = ((u + 1 : Nat) : Int) := by push_cast; rfl
    rw [this, toKvalue_cast _ hu]
  simp only [hneg, if_false, r1, r2, w1, Option.bind_eq_bind, Option.some_bind, hw]
  by_cases h : 0 < n
  · have hpos : (n : Int) > 0 := by omega
    have e2 : (n : Int) - 1 = ((n - 1 : Nat) : Int) := by omega
    have r3 : rdA (A.set n (u + 1)) (n : Int) = some (u + 1) := by
      rw [rdA_cast, List.getElem?_set_self (by omega)]
    have w2 : wrA (A.set n (u + 1)) ((n : Int) - 1) (((u + 1 : Nat) : Int) - 1)
        = some ((A.set n (u + 1)).set (n - 1) u) := by
      rw [e2, wrA_cast _ _ _ (by rw [List.length_set]; omega)]
      have : ((u + 1 : Nat) : Int) - 1 = (u : Int) := by push_cast; omega
      rw [this, toKvalue_cast u (by omega)]
    simp only [hpos, if_true, r3, w2, Option.some_bind, h]
    rw [toShort_small _ (by omega) (by omega)]
  · have hpos : ¬ ((n : Int) > 0) := by omega
    simp only [hpos, if_false, h]

theorem packedLen_range' (l : List Nat) : ∀ n s,
    packedLen (List.range' s n ++ l) s = n + packedLen l (s + n) := by
  intro n
  induction n with
  | zero => intro s; simp
  | succ n ih =>
    intro s
    rw [List.range'_succ, List.cons_append]
    show (if s = s then packedLen (List.range' (s + 1) n ++ l) (s + 1) + 1 else 0) = _
    rw [if_pos rfl, ih (s + 1)]
    have : s + 1 + n = s + (n + 1) := by omega
    rw [this]
    omega

theorem packedLen_take_ne (a s n : Nat) (tl : List Nat) (h : a ≠ s) :
    packedLen ((a :: tl).take n) s = 0 := by
  cases n with
  | zero => rfl
  | succ n =>
    rw [List.take_succ_cons]
    show (if a = s then packedLen (tl.take n) (s + 1) + 1 else 0) = 0
    rw [if_neg h]

theorem packedLen_full (n : Nat) (l : List Nat) :
    packedLen ((List.range n ++ l).take n) 0 = n := by
  rw [List.take_left' (List.length_range n), List.range_eq_range']
  have := packedLen_range' [] n 0
  rw [List.append_nil] at this
  rw [this]
  rfl

theorem cursor_full (n : Nat) (l : List Nat) :
    cursor n (List.range n ++ l) = (n : Int) - 1 := by
  unfold cursor
  rw [packedLen_full, if_neg (by omega)]

theorem packedLen_shape (n a z : Nat) (tl : List Nat) (h : a ≠ n) (hz : n ≤ z) :
    packedLen ((List.range n ++ a :: tl).take z) 0 = n := by
  rw [List.take_append_eq_append_take, List.length_range,
    List.take_of_length_le (by rw [List.length_range]; exact hz), List.range_eq_range',
    packedLen_range', Nat.zero_add, packedLen_take_ne a n _ tl h, Nat.add_zero]

theorem cursor_shape (n a z : Nat) (tl : List Nat) (h : a ≠ n) (hz : n ≤ z) :
    cursor z (List.range n ++ a :: tl) = if (n + z) % 2 = 1 then (n : Int) else (n : Int) - 1 := by
  unfold cursor
  rw [packedLen_shape n a z tl h hz]

theorem range_snoc_append (p : Nat) (l : List Nat) :
    List.range p ++ p :: l = List.range (p + 1) ++ l := by
  rw [List.range_succ, List.append_assoc]; rfl

theorem getElem?_range_append (p j : Nat) (l : List Nat) :
    (List.range p ++ l)[p + j]? = l[j]? := by
  rw [List.getElem?_append_right (by rw [List.length_range]; omega), List.length_range,
    Nat.add_sub_cancel_left]

theorem set_range_append_zero (p v : Nat) (l : List Nat) :
    (List.range p ++ l).set p v = List.range p ++ l.set 0 v := by
  rw [List.set_append_right _ _ (by rw [List.length_range]), List.length_range, Nat.sub_self]

theorem set_range_append (p j v : Nat) (l : List Nat) :
    (List.range p ++ l).set (p + j) v = List.range p ++ l.set j v := by
  rw [List.set_append_right _ _ (by rw [List.length_range]; omega), List.length_range,
    Nat.add_sub_cancel_left]

/-- An exchange at index `i` of the parity opposite to `z` is what `next_comb`
performs (branch `else`) when the cursor is the one that goes with `A`. -/
theorem next_comb_upAt (z i : Nat) (A B : List Nat) (hlen : A.length = z + 1)
    (hz : z ≤ 32767) (hbd : ∀ v ∈ A, v < 65536) (hi : i % 2 ≠ z % 2) (h : UpAt i A B) :
    next_comb ⟨A, cursor z A⟩ = some ⟨B, cursor z B⟩ := by
  obtain ⟨x, y, rest, hxy, ⟨rfl, rfl, rfl⟩ | ⟨p, rfl, hpx, rfl, rfl⟩⟩ := h
  · have hy : y < 65536 := hbd y (by simp)
    simp only [List.length_cons] at hlen
    have hcA : cursor z (x :: y :: rest) = ((0 : Nat) : Int) := by
      by_cases hx : x = 0
      · subst hx
        have := cursor_shape 1 y z rest (by omega) (by omega)
        rw [show List.range 1 ++ y :: rest = 0 :: y :: rest from rfl] at this
        rw [this, if_neg (by omega)]; rfl
      · have := cursor_shape 0 x z (y :: rest) hx (by omega)
        rw [show List.range 0 ++ x :: y :: rest = x :: y :: rest from rfl] at this
        rw [this, if_pos (by omega)]
    have hcB : cursor z ((x + 1) :: y :: rest) = ((0 : Nat) : Int) := by
      have := cursor_shape 0 (x + 1) z (y :: rest) (by omega) (by omega)
      rw [show List.range 0 ++ (x + 1) :: y :: rest = (x + 1) :: y :: rest from rfl] at this
      rw [this, if_pos (by omega)]
    have g1 : (x :: y :: rest)[0]? = some x := rfl
    have g2 : (x :: y :: rest)[0 + 1]? = some y := by simp
    rw [hcA, hcB, next_comb_up _ 0 x y (by simp) (by omega) g1 g2 (by omega) (by omega)]
    rfl
  · have hy : y < 65536 := hbd y (by simp)
    simp only [List.length_append, List.length_range, List.length_cons] at hlen
    have hcA : cursor z (List.range p ++ p :: x :: y :: rest) = ((p + 1 : Nat) : Int) := by
      by_cases hx : x = p + 1
      · subst hx
        rw [range_snoc_append, range_snoc_append,
          cursor_shape (p + 1 + 1) y z rest (by omega) (by omega), if_neg (by omega)]
        push_cast; omega
      · rw [range_snoc_append, cursor_shape (p + 1) x z (y :: rest) hx (by omega),
          if_pos (by omega)]
    have hcB : cursor z (List.range p ++ x :: (x + 1) :: y :: rest) = ((p + 1 : Nat) : Int) - 2 := by
      rw [cursor_shape p x z _ (by omega) (by omega), if_neg (by omega)]
      push_cast; omega
    have g1 : (List.range p ++ p :: x :: y :: rest)[p + 1]? = some x :=
      getElem?_range_append p 1 _
    have g2 : (List.range p ++ p :: x :: y :: rest)[p + 1 + 1]? = some y := by
      have := getElem?_range_append p 2 (p :: x :: y :: rest)
      rw [show p + 2 = p + 1 + 1 from rfl] at this
      rw [this]
      simp
    rw [hcA, hcB, next_comb_up _ (p + 1) x y
      (by simp only [List.length_append, List.length_range, List.length_cons]; omega)
      (by omega) g1 g2 (by omega) (by omega), if_pos (by omega)]
    congr 2
    rw [set_range_append p 1, Nat.add_sub_cancel]
    rw [set_range_append_zero]
    rfl

/-- The inverse of an exchange at index `i` of the parity of `z` is what
`next_comb` performs (branch `J < 0` or `A[J+1] == A[J] + 1`) when the cursor
is the one that goes with `A`. -/
theorem next_comb_downAt (z i : Nat) (A B : List Nat) (hlen : A.length = z + 1)
    (hz : z ≤ 32767) (hbd : ∀ v ∈ A, v < 65536) (hi : i % 2 = z % 2) (h : UpAt i B A) :
    next_comb ⟨A, cursor z A⟩ = some ⟨B, cursor z B⟩ := by
  obtain ⟨x, y, rest, hxy, ⟨rfl, rfl, rfl⟩ | ⟨p, rfl, hpx, rfl, rfl⟩⟩ := h
  · have hy : y < 65536 := hbd y (by simp)
    simp only [List.length_cons] at hlen
    have hcA : cursor z ((x + 1) :: y :: rest) = -1 := by
      have := cursor_shape 0 (x + 1) z (y :: rest) (by omega) (by omega)
      rw [show List.range 0 ++ (x + 1) :: y :: rest = (x + 1) :: y :: rest from rfl] at this
      rw [this, if_neg (by omega)]; rfl
    have hcB : cursor z (x :: y :: rest) = if x + 1 = 1 then 1 else -1 := by
      by_cases hx : x = 0
      · subst hx
        have := cursor_shape 1 y z rest (by omega) (by omega)
        rw [show List.range 1 ++ y :: rest = 0 :: y :: rest from rfl] at this
        rw [this, if_pos (by omega)]; rfl
      · have := cursor_shape 0 x z (y :: rest) hx (by omega)
        rw [show List.range 0 ++ x :: y :: rest = x :: y :: rest from rfl] at this
        rw [this, if_neg (by omega), if_neg (by omega)]; rfl
    rw [hcA, hcB, next_comb_neg (x + 1) (y :: rest) (by omega) (by omega)]
    rfl
  · have hy : y < 65536 := hbd y (by simp)
    simp only [List.length_append, List.length_range, List.length_cons] at hlen
    have hcA : cursor z (List.range p ++ x :: (x + 1) :: y :: rest) = ((p : Nat) : Int) := by
      rw [cursor_shape p x z _ (by omega) (by omega), if_pos (by omega)]
    have hcB : cursor z (List.range p ++ p :: x :: y :: rest)
        = if x = p + 1 then (p : Int) + 2 else p := by
      by_cases hx : x = p + 1
      · subst hx
        rw [range_snoc_append, range_snoc_append,
          cursor_shape (p + 1 + 1) y z rest (by omega) (by omega), if_pos (by omega), if_pos rfl]
        push_cast; omega
      · rw [range_snoc_append, cursor_shape (p + 1) x z (y :: rest) hx (by omega),
          if_neg (by omega), if_neg hx]
        push_cast; omega
    have g1 : (List.range p ++ x :: (x + 1) :: y :: rest)[p]? = some x := by
      have := getElem?_range_append p 0 (x :: (x + 1) :: y :: rest)
      rwa [Nat.add_zero] at this
    have g2 : (List.range p ++ x :: (x + 1) :: y :: rest)[p + 1]? = some (x + 1) :=
      getElem?_range_append p 1 _
    rw [hcA, hcB, next_comb_mid _ p x
      (by simp only [List.length_append, List.length_range, List.length_cons]; omega)
      (by omega) g1 g2 (by omega), toShort_small _ (by omega) (by omega)]
    congr 2
    rw [set_range_append p 1]
    rw [set_range_append_zero]
    rfl

theorem next_comb_move (z : Nat) (A B : List Nat) (hlen : A.length = z + 1)
    (hz : z ≤ 32767) (hbd : ∀ v ∈ A, v < 65536) (h : MoveP z A B) :
    next_comb ⟨A, cursor z A⟩ = some ⟨B, cursor z B⟩ := by
  obtain ⟨i, ⟨hi, hu⟩ | ⟨hi, hu⟩⟩ := h
  · exact next_comb_upAt z i A B hlen hz hbd hi hu
  · exact next_comb_downAt z i A B hlen hz hbd hi hu

/-- The call of `next_comb` on the last subset `0, ..., z-2, k-1`: the sentinel
`A[z]` is lowered to `k - 1` and `A[z-1]` is reset to `z - 1`. -/
theorem next_comb_last (k z : Nat) (hz : 1 ≤ z) (hzk : z ≤ k) (hk : k ≤ 32767) :
    next_comb ⟨(List.range (z - 1) ++ [k - 1]) ++ [k],
        cursor z ((List.range (z - 1) ++ [k - 1]) ++ [k])⟩
      = some ⟨List.range z ++ [k - 1], lastJ k z⟩ := by
  obtain ⟨p, rfl⟩ : ∃ p, z = p + 1 := ⟨z - 1, by omega⟩
  simp only [Nat.add_sub_cancel, List.append_assoc, List.singleton_append]
  have hc : cursor (p + 1) (List.range p ++ [k - 1, k]) = ((p : Nat) : Int) := by
    by_cases h : k - 1 = p
    · rw [h, range_snoc_append, cursor_full]
      push_cast; omega
    · rw [cursor_shape p (k - 1) (p + 1) [k] h (by omega), if_pos (by omega)]
  have g1 : (List.range p ++ [k - 1, k])[p]? = some (k - 1) := by
    have := getElem?_range_append p 0 [k - 1, k]
    rwa [Nat.add_zero] at this
  have g2 : (List.range p ++ [k - 1, k])[p + 1]? = some (k - 1 + 1) := by
    rw [getElem?_range_append p 1]
    simp
    omega
  rw [hc, next_comb_mid _ p (k - 1) (by simp) (by omega) g1 g2 (by omega)]
  congr 2
  · rw [set_range_append p 1, set_range_append_zero, List.range_succ, List.append_assoc]
    rfl
  · unfold lastJ
    by_cases h : k = p + 1 + 1
    · rw [if_pos h, if_pos (by omega)]
      push_cast
      congr 1
    · rw [if_neg h, if_neg (by omega)]
      push_cast; omega

theorem algo57_trace_of_chain (k z : Nat) : ∀ (L : List Globals) (last g0 : Globals),
    (L ++ [last]).head? = some g0 →
    List.Chain' (fun a b => next_comb a = some b) (L ++ [last]) →
    (∀ a ∈ L, ∃ az, a.A[z]? = some az ∧ k ≤ az) →
    (∃ az, last.A[z]? = some az ∧ az < k) →
    ∀ fuel, L.length < fuel → algo57_trace k z fuel g0 = some (L ++ [last]) := by
  intro L
  induction L with
  | nil =>
    intro last g0 hh _ _ hl fuel hf
    obtain ⟨f, rfl⟩ : ∃ f, fuel = f + 1 := ⟨fuel - 1, by omega⟩
    simp only [List.nil_append, List.head?_cons, Option.some.injEq] at hh
    subst hh
    obtain ⟨az, h1, h2⟩ := hl
    unfold algo57_trace
    rw [h1]
    simp only
    rw [if_neg (by omega)]
    rfl
  | cons a L ih =>
    intro last g0 hh hc hg hl fuel hf
    obtain ⟨f, rfl⟩ : ∃ f, fuel = f + 1 := ⟨fuel - 1, by omega⟩
    simp only [List.cons_append, List.head?_cons, Option.some.injEq] at hh
    subst hh
    obtain ⟨az, h1, h2⟩ := hg a (List.mem_cons_self _ _)
    rw [List.cons_append, List.chain'_cons'] at hc
    obtain ⟨b, hb⟩ : ∃ b, (L ++ [last]).head? = some b := by
      cases L <;> simp
    have hnext : next_comb a = some b := hc.1 b hb
    unfold algo57_trace
    rw [h1]
    simp only
    rw [if_pos h2, hnext]
    simp only
    rw [ih last b hb hc.2 (fun x hx => hg x (List.mem_cons_of_mem _ hx)) hl f
      (by simp only [List.length_cons] at hf; omega)]
    rfl

theorem rdList_isComb (k z : Nat) (c : List Nat) (hc : c ∈ rdList k z) : IsComb k z c :=
  ((rdList_enumerates k z).2 c).mp hc

theorem algo57_init_eq (k z : Nat) (hz : z ≤ 32767) :
    algo57_init k z = ⟨List.range z ++ [k], cursor z (List.range z ++ [k])⟩ := by
  unfold algo57_init
  rw [cursor_full, toShort_small _ (by omega) (by omega)]

/-- Each state of `algo57_states` is taken to the next by `next_comb`. -/
theorem algo57_states_chain (k z : Nat) (hz : 1 ≤ z) (hzk : z ≤ k) (hk : k ≤ 32767) :
    List.Chain' (fun a b => next_comb a = some b) (algo57_states k z) := by
  unfold algo57_states
  refine List.Chain'.append ?_ (List.chain'_singleton _) ?_
  · rw [List.chain'_map]
    refine (List.Chain'.iff_mem.mp (rdList_chain k z k [] (le_refl _))).imp ?_
    rintro c d ⟨hc, _, hmv⟩
    have hcomb := rdList_isComb k z c hc
    refine next_comb_move z _ _ (by simp [hcomb.1]) (by omega) ?_ hmv
    intro v hv
    rw [List.mem_append, List.mem_singleton] at hv
    rcases hv with hv | hv
    · have := hcomb.2.2 v hv; omega
    · omega
  · intro x hx y hy
    simp only [List.head?_cons, Option.mem_def, Option.some.injEq] at hy
    subst hy
    rw [List.getLast?_map, (rdList_ends k z).2.1 hz hzk] at hx
    simp only [Option.map_some', Option.mem_def, Option.some.injEq] at hx
    subst hx
    exact next_comb_last k z hz hzk hk

theorem algo57_states_head (k z : Nat) (hzk : z ≤ k) (hk : k ≤ 32767) :
    (algo57_states k z).head? = some (algo57_init k z) := by
  unfold algo57_states
  rw [List.head?_append, List.head?_map, (rdList_ends k z).1 hzk,
    algo57_init_eq k z (by omega)]
  rfl

theorem algo57_states_length (k z : Nat) :
    (algo57_states k z).length = Nat.choose k z + 1 := by
  unfold algo57_states
  rw [List.length_append, List.length_map, rdList_length]
  rfl

/-- The trace of the loop of `gen_comb_algo57` for `1 ≤ z ≤ k ≤ 32767` is
`algo57_states`. -/
theorem algo57_trace_eq (k z : Nat) (hz : 1 ≤ z) (hzk : z ≤ k) (hk : k ≤ 32767) :
    ∀ fuel, Nat.choose k z < fuel →
      algo57_trace k z fuel (algo57_init k z) = some (algo57_states k z) := by
  intro fuel hf
  have hch := algo57_states_chain k z hz hzk hk
  have hhd := algo57_states_head k z hzk hk
  unfold algo57_states at hch hhd ⊢
  apply algo57_trace_of_chain k z _ _ _ hhd hch
  · intro a ha
    rw [List.mem_map] at ha
    obtain ⟨c, hc, rfl⟩ := ha
    refine ⟨k, ?_, le_refl _⟩
    have hlen := (rdList_isComb k z c hc).1
    simp only
    rw [List.getElem?_append_right (by omega), hlen, Nat.sub_self]
    rfl
  · refine ⟨k - 1, ?_, by omega⟩
    simp only
    rw [List.getElem?_append_right (by rw [List.length_range]), List.length_range, Nat.sub_self]
    rfl
  · rw [List.length_map, rdList_length]
    exact hf

theorem emitted_states (k z : Nat) : emitted z (algo57_states k z) = rdList k z := by
  unfold emitted algo57_states
  rw [List.dropLast_concat, List.map_map]
  have : ∀ c ∈ rdList k z,
      ((fun g : Globals => g.A.take z) ∘ fun c => (⟨c ++ [k], cursor z (c ++ [k])⟩ : Globals)) c
        = id c := by
    intro c hc
    simp only [Function.comp, id]
    exact List.take_left' (rdList_isComb k z c hc).1
  rw [List.map_congr_left this, List.map_id]

theorem algo57_trace_ne_nil (k z : Nat) : ∀ fuel g G,
    algo57_trace k z fuel g = some G → G ≠ [] := by
  intro fuel
  induction fuel with
  | zero => intro g G h; simp [algo57_trace] at h
  | succ f ih =>
    intro g G h
    unfold algo57_trace at h
    cases hz : g.A[z]? with
    | none => rw [hz] at h; simp at h
    | some az =>
      rw [hz] at h
      simp only at h
      by_cases hk : az ≥ k
      · rw [if_pos hk] at h
        cases hn : next_comb g with
        | none => rw [hn] at h; simp at h
        | some g1 =>
          rw [hn] at h
          simp only [Option.map_eq_some'] at h
          obtain ⟨l, _, rfl⟩ := h
          exact List.cons_ne_nil _ _
      · rw [if_neg hk] at h
        simp only [Option.some.injEq] at h
        subst h
        exact List.cons_ne_nil _ _

theorem memcpy_spec (tab : List Nat) (off : Nat) (src : List Nat)
    (h : off + src.length ≤ tab.length) :
    memcpy tab off src = some (tab.take off ++ src ++ tab.drop (off + src.length)) := by
  unfold memcpy
  rw [if_pos h]

/-- The loop of `gen_comb_algo57` stores the arrays of its trace as consecutive
rows, provided the buffer has room for them. -/
theorem algo57_loop_of_trace (k z k0 : Nat) : ∀ fuel g (n : Nat) (tab : List Nat) G,
    algo57_trace k z fuel g = some G →
    (n + (G.length - 1)) * z ≤ tab.length → tab.length < 2 ^ 32 →
    n + (G.length - 1) < 2 ^ 32 →
    algo57_loop k fuel g { k := k0, z := z, n := n, tab := tab } =
      some { k := k0, z := z, n := n + (G.length - 1), tab :=
        (tab.take (n * z) ++ (emitted z G).flatten ++ tab.drop ((n + (G.length - 1)) * z)) } := by
  intro fuel
  induction fuel with
  | zero => intro g n tab G h; simp [algo57_trace] at h
  | succ f ih =>
    intro g n tab G h hcap hlen hN
    unfold algo57_trace at h
    unfold algo57_loop
    cases hz : g.A[z]? with
    | none => rw [hz] at h; simp at h
    | some az =>
      rw [hz] at h
      simp only at h ⊢
      by_cases hk : az ≥ k
      · rw [if_pos hk] at h ⊢
        cases hn : next_comb g with
        | none => rw [hn] at h; simp at h
        | some g1 =>
          rw [hn] at h
          simp only [Option.map_eq_some'] at h
          obtain ⟨G1, hG1, rfl⟩ := h
          have hne := algo57_trace_ne_nil k z f g1 G1 hG1
          have hG1len : 1 ≤ G1.length := List.length_pos.mpr hne
          have hrow : (g.A.take z).length = z := by
            rw [List.length_take]
            have : z < g.A.length := by
              by_contra hcon
              rw [List.getElem?_eq_none (by omega)] at hz
              exact Option.noConfusion hz
            omega
          simp only [List.length_cons, Nat.add_sub_cancel] at hcap hN ⊢
          have hmul : (n + G1.length) * z = n * z + G1.length * z := by ring
          have hz1 : z ≤ G1.length * z := Nat.le_mul_of_pos_left z hG1len
          have hoff : n * z % 2 ^ 32 = n * z := Nat.mod_eq_of_lt (by omega)
          rw [hoff, memcpy_spec _ _ _ (by rw [hrow]; omega)]
          simp only
          have hn1 : (n + 1) % 2 ^ 32 = n + 1 := Nat.mod_eq_of_lt (by omega)
          rw [hn1, hrow]
          have hpre : (tab.take (n * z)).length = n * z :=
            List.length_take_of_le (by omega)
          have hmul2 : (n + 1 + (G1.length - 1)) * z = n * z + G1.length * z := by
            rw [show n + 1 + (G1.length - 1) = n + G1.length by omega, hmul]
          have hmul3 : (n + 1) * z = n * z + z := by ring
          rw [ih g1 (n + 1) _ G1 hG1
            (by simp only [List.length_append, hpre, hrow, List.length_drop]; rw [hmul2]; omega)
            (by simp only [List.length_append, hpre, hrow, List.length_drop]; omega)
            (by omega)]
          congr 2
          · omega
          · have hem : emitted z (g :: G1) = g.A.take z :: emitted z G1 := by
              unfold emitted
              rw [List.dropLast_cons_of_ne_nil hne, List.map_cons]
            rw [hem, List.flatten_cons, hmul2, hmul3]
            have e1 : n * z + z = (tab.take (n * z) ++ g.A.take z).length := by
              rw [List.length_append, hpre, hrow]
            have e2 : n * z + G1.length * z
                = (tab.take (n * z) ++ g.A.take z).length + (G1.length * z - z) := by
              rw [← e1]; omega
            rw [List.take_append_of_le_length (by rw [← e1]), e1, List.take_length]
            rw [e2, List.drop_append, List.drop_drop, hmul]
            simp only [List.append_assoc]
            rw [← e2]
      · rw [if_neg hk] at h ⊢
        simp only [Option.some.injEq] at h
        subst h
        simp [emitted]

/-- Result of `gen_comb_algo57` when the buffer has room for `C(k, z)` rows: the
revolving-door list, row after row. -/
theorem gen_comb_algo57_eq (k z : Nat) (hz : 1 ≤ z) (hzk : z ≤ k) (hk : k ≤ 32767)
    (hcap : Nat.choose k z * z ≤ binom k z * z % 2 ^ 32)
    (fuel : Nat) (hf : Nat.choose k z < fuel) :
    gen_comb_algo57 fuel k z = some { k := k, z := z, n := Nat.choose k z, tab :=
      ((rdList k z).flatten
        ++ List.replicate (binom k z * z % 2 ^ 32 - Nat.choose k z * z) 0) } := by
  have htr := algo57_trace_eq k z hz hzk hk
  have hlt : binom k z * z % 2 ^ 32 < 2 ^ 32 := Nat.mod_lt _ (by norm_num)
  have hNz : Nat.choose k z ≤ Nat.choose k z * z := Nat.le_mul_of_pos_right _ hz
  have hG : (algo57_states k z).length - 1 = Nat.choose k z := by
    rw [algo57_states_length]; rfl
  have := algo57_loop_of_trace k z k fuel (algo57_init k z) 0
    (List.replicate (binom k z * z % 2 ^ 32) 0) _ (htr fuel hf)
    (by rw [hG, Nat.zero_add, List.length_replicate]; exact hcap)
    (by rw [List.length_replicate]; exact hlt)
    (by rw [hG]; omega)
  unfold gen_comb_algo57 new_comb
  rw [this, hG, emitted_states]
  simp [List.drop_replicate]

theorem rows_gen_comb_algo57 (k z : Nat) (rest : List Nat) :
    rows { k := k, z := z, n := Nat.choose k z, tab := (rdList k z).flatten ++ rest }
      = rdList k z :=
  rows_of_flatten k z (Nat.choose k z) (rdList k z) rest
    (fun r hr => (rdList_isComb k z r hr).1) (rdList_length k z).symm

theorem algo57_trace_mono (k z : Nat) : ∀ fuel g G,
    algo57_trace k z fuel g = some G → ∀ more, algo57_trace k z (fuel + more) g = some G := by
  intro fuel
  induction fuel with
  | zero => intro g G h; simp [algo57_trace] at h
  | succ f ih =>
    intro g G h more
    rw [show f + 1 + more = (f + more) + 1 by omega]
    unfold algo57_trace at h ⊢
    cases hz : g.A[z]? with
    | none => rw [hz] at h; simp at h
    | some az =>
      rw [hz] at h
      simp only at h ⊢
      by_cases hk : az ≥ k
      · rw [if_pos hk] at h ⊢
        cases hn : next_comb g with
        | none => rw [hn] at h; simp at h
        | some g1 =>
          rw [hn] at h
          simp only [Option.map_eq_some'] at h ⊢
          obtain ⟨G1, hG1, rfl⟩ := h
          exact ⟨G1, ih g1 G1 hG1 more, rfl⟩
      · rw [if_neg hk] at h ⊢
        exact h

/-- Where the loop on the globals yields no trace, the loop with the buffer
yields no result. -/
theorem algo57_loop_none_of_trace (k z k0 : Nat) : ∀ fuel g (n : Nat) (tab : List Nat),
    algo57_trace k z fuel g = none →
    algo57_loop k fuel g { k := k0, z := z, n := n, tab := tab } = none := by
  intro fuel
  induction fuel with
  | zero => intro g n tab _; rfl
  | succ f ih =>
    intro g n tab h
    unfold algo57_trace at h
    unfold algo57_loop
    cases hz : g.A[z]? with
    | none => rfl
    | some az =>
      rw [hz] at h
      simp only at h ⊢
      by_cases hk : az ≥ k
      · rw [if_pos hk] at h ⊢
        cases hm : memcpy tab (n * z % 2 ^ 32) (g.A.take z) with
        | none => rfl
        | some tab1 =>
          simp only
          cases hn : next_comb g with
          | none => rfl
          | some g1 =>
            rw [hn] at h
            simp only [Option.map_eq_none'] at h ⊢
            exact ih g1 _ _ h
      · rw [if_neg hk] at h
        exact Option.noConfusion h

/-- Where the trace holds more rows than the buffer has room for, a `memcpy`
of the loop of `gen_comb_algo57` writes past the buffer. -/
theorem algo57_loop_overrun (k z k0 : Nat) (hz : 1 ≤ z) : ∀ fuel g (n : Nat) (tab : List Nat) G,
    algo57_trace k z fuel g = some G →
    n * z ≤ tab.length → tab.length < 2 ^ 32 →
    tab.length < (n + (G.length - 1)) * z →
    algo57_loop k fuel g { k := k0, z := z, n := n, tab := tab } = none := by
  intro fuel
  induction fuel with
  | zero => intro g n tab G h; simp [algo57_trace] at h
  | succ f ih =>
    intro g n tab G h hlo hlen hhi
    unfold algo57_trace at h
    unfold algo57_loop
    cases hzz : g.A[z]? with
    | none => rfl
    | some az =>
      rw [hzz] at h
      simp only at h ⊢
      by_cases hk : az ≥ k
      · rw [if_pos hk] at h ⊢
        cases hn : next_comb g with
        | none => rw [hn] at h; simp at h
        | some g1 =>
          rw [hn] at h
          simp only [Option.map_eq_some'] at h
          obtain ⟨G1, hG1, rfl⟩ := h
          have hne := algo57_trace_ne_nil k z f g1 G1 hG1
          have hG1len : 1 ≤ G1.length := List.length_pos.mpr hne
          have hrow : (g.A.take z).length = z := by
            rw [List.length_take]
            have : z < g.A.length := by
              by_contra hcon
              rw [List.getElem?_eq_none (by omega)] at hzz
              exact Option.noConfusion hzz
            omega
          simp only [List.length_cons, Nat.add_sub_cancel] at hhi
          have hoff : n * z % 2 ^ 32 = n * z := Nat.mod_eq_of_lt (by omega)
          rw [hoff]
          by_cases hfit : n * z + z ≤ tab.length
          · rw [memcpy_spec _ _ _ (by rw [hrow]; exact hfit)]
            simp only
            have hmul3 : (n + 1) * z = n * z + z := by ring
            have hn1z : n + 1 ≤ (n + 1) * z := Nat.le_mul_of_pos_right _ hz
            have hn1 : (n + 1) % 2 ^ 32 = n + 1 := Nat.mod_eq_of_lt (by omega)
            have hpre : (tab.take (n * z)).length = n * z :=
              List.length_take_of_le (by omega)
            rw [hn1, hrow]
            refine ih g1 (n + 1) _ G1 hG1 ?_ ?_ ?_
            · simp only [List.length_append, hpre, hrow, List.length_drop]; omega
            · simp only [List.length_append, hpre, hrow, List.length_drop]; omega
            · simp only [List.length_append, hpre, hrow, List.length_drop]
              rw [show n + 1 + (G1.length - 1) = n + G1.length by omega]
              omega
          · unfold memcpy
            rw [if_neg (by rw [hrow]; exact hfit)]
      · rw [if_neg hk] at h
        simp only [Option.some.injEq] at h
        subst h
        simp only [List.length_singleton, Nat.sub_self, Nat.add_zero] at hhi
        omega

/-- For `1 ≤ z ≤ k ≤ 32767`, when the buffer of `binom (k, z) * z` slots (32-bit
product) is too small for `C(k, z)` rows, `gen_comb_algo57 (k, z)` returns no
result: one of its `memcpy` calls writes past the buffer. -/
theorem gen_comb_algo57_none (k z : Nat) (hz : 1 ≤ z) (hzk : z ≤ k) (hk : k ≤ 32767)
    (hcap : binom k z * z % 2 ^ 32 < Nat.choose k z * z) :
    ∀ fuel, gen_comb_algo57 fuel k z = none := by
  intro fuel
  have htr := algo57_trace_eq k z hz hzk hk
  unfold gen_comb_algo57 new_comb
  cases h : algo57_trace k z fuel (algo57_init k z) with
  | none => exact algo57_loop_none_of_trace k z k fuel _ _ _ h
  | some G =>
    have h1 := algo57_trace_mono k z fuel _ G h (Nat.choose k z + 1)
    rw [htr (fuel + (Nat.choose k z + 1)) (by omega)] at h1
    simp only [Option.some.injEq] at h1
    refine algo57_loop_overrun k z k hz fuel _ 0 _ G h (by simp) ?_ ?_
    · rw [List.length_replicate]; exact Nat.mod_lt _ (by norm_num)
    · rw [← h1, List.length_replicate, algo57_states_length]
      simpa using hcap

theorem algo57_states_guard_last (k z : Nat) (hz : 1 ≤ z) (hzk : z ≤ k)
    (j : Nat) (hj : j < (algo57_states k z).length) (az : Nat)
    (h1 : ((algo57_states k z)[j]).A[z]? = some az) (h2 : az ≥ k) :
    j + 1 < (algo57_states k z).length := by
  by_contra hcon
  have hlen := algo57_states_length k z
  have hjl : j = Nat.choose k z := by omega
  subst hjl
  have : (algo57_states k z)[Nat.choose k z] = ⟨List.range z ++ [k - 1], lastJ k z⟩ := by
    unfold algo57_states
    rw [List.getElem_append_right (by rw [List.length_map, rdList_length])]
    simp [rdList_length]
  rw [this] at h1
  simp only at h1
  rw [List.getElem?_append_right (by rw [List.length_range]), List.length_range,
    Nat.sub_self] at h1
  simp only [List.getElem?_cons_zero, Option.some.injEq] at h1
  omega

/-- Every value taken by the globals in the loop of `gen_comb_algo57`, buffer
included, is an entry of `algo57_states`. -/
theorem algo57_iter_mem (k z : Nat) (hz : 1 ≤ z) (hzk : z ≤ k) (hk : k ≤ 32767) :
    ∀ i s, algo57_iter k i (algo57_init k z, new_comb k z) = some s →
      s.2.z = z ∧ ∃ j, ∃ hj : j < (algo57_states k z).length, (algo57_states k z)[j] = s.1 := by
  intro i
  induction i with
  | zero =>
    intro s h
    simp only [algo57_iter, Option.some.injEq] at h
    subst h
    refine ⟨rfl, 0, by rw [algo57_states_length]; omega, ?_⟩
    have hh := algo57_states_head k z hzk hk
    rw [List.head?_eq_getElem?] at hh
    have hlt : 0 < (algo57_states k z).length := by rw [algo57_states_length]; omega
    rw [List.getElem?_eq_getElem hlt] at hh
    exact Option.some.inj hh
  | succ i ih =>
    intro s1 h
    have h' : (algo57_iter k i (algo57_init k z, new_comb k z)).bind (algo57_pass k)
        = some s1 := h
    cases hs : algo57_iter k i (algo57_init k z, new_comb k z) with
    | none => rw [hs] at h'; simp at h'
    | some s =>
      rw [hs, Option.some_bind] at h'
      obtain ⟨hsz, j, hj, hjs⟩ := ih s hs
      unfold algo57_pass at h'
      rw [hsz] at h'
      cases hz1 : s.1.A[z]? with
      | none => rw [hz1] at h'; simp at h'
      | some az =>
        rw [hz1] at h'
        simp only at h'
        by_cases hg : az ≥ k
        · rw [if_pos hg] at h'
          cases hm : memcpy s.2.tab (s.2.n * z % 2 ^ 32) (s.1.A.take z) with
          | none => rw [hm] at h'; simp at h'
          | some tab1 =>
            rw [hm] at h'
            simp only at h'
            cases hn : next_comb s.1 with
            | none => rw [hn] at h'; simp at h'
            | some g1 =>
              rw [hn] at h'
              simp only [Option.some.injEq] at h'
              subst h'
              have hj1 := algo57_states_guard_last k z hz hzk j hj az (by rw [hjs]; exact hz1) hg
              have hch := (List.chain'_iff_get.mp (algo57_states_chain k z hz hzk hk)) j
                (by omega)
              simp only [List.get_eq_getElem] at hch
              rw [hjs, hn] at hch
              exact ⟨hsz, j + 1, hj1, (Option.some.inj hch).symm⟩
        · rw [if_neg hg] at h'
          simp at h'

theorem algo57_states_inv (k z : Nat) (hzk : z ≤ k) (g : Globals)
    (hg : g ∈ algo57_states k z) :
    (g.A.take z).length = z ∧ (g.A.take z).Sorted (· < ·) ∧ ∀ v ∈ g.A.take z, v < k := by
  unfold algo57_states at hg
  rw [List.mem_append, List.mem_map, List.mem_singleton] at hg
  rcases hg with ⟨c, hc, rfl⟩ | rfl
  · have hcomb := rdList_isComb k z c hc
    simp only
    rw [List.take_left' hcomb.1]
    exact hcomb
  · simp only
    rw [List.take_left' (List.length_range z)]
    refine ⟨List.length_range z, List.sorted_lt_range z, ?_⟩
    intro v hv
    rw [List.mem_range] at hv
    omega

theorem coolest_iter_none_after (k R2 : Nat) (s0 s1 : Nat × combination) (N : Nat)
    (h : coolest_iter k R2 N s0 = some s1) (hg : s1.1 &&& R2 ≠ 0) :
    ∀ j, coolest_iter k R2 (N + 1 + j) s0 = none := by
  intro j
  induction j with
  | zero =>
    show (coolest_iter k R2 N s0).bind _ = none
    rw [h, Option.some_bind, if_neg hg]
  | succ j ih =>
    show (coolest_iter k R2 (N + 1 + j) s0).bind _ = none
    rw [ih]
    rfl

/-- Every register that the loop of `the_coolest` hands to `visit` is an entry
of the cool-lex list. -/
theorem coolest_visited_mem (k z : Nat) (hz : 1 ≤ z) (hzk : z ≤ k) (hk : k ≤ 30)
    (i : Nat) (s : Nat × combination)
    (h : coolest_iter z (2 ^ k) i (2 ^ z - 1, new_comb k z) = some s)
    (hg : s.1 &&& 2 ^ k = 0) : s.1 ∈ coolList k z := by
  have hN := coolList_length k z hzk
  have hzk2 : (2:Nat) ^ z ≤ 2 ^ k := Nat.pow_le_pow_right (by norm_num) hzk
  have hpos : 0 < 2 ^ z := Nat.two_pow_pos z
  have hend : (2 ^ z - 2 + 2 ^ k) &&& 2 ^ k ≠ 0 := land_two_pow_add (2 ^ z - 2) k (by omega)
  rcases Nat.lt_trichotomy i (Nat.choose k z) with hi | hi | hi
  · have hlt : i < (coolList k z ++ [2 ^ z - 2 + 2 ^ k]).length := by
      rw [List.length_append, hN]; simp; omega
    have hst := coolest_states k z hz hzk hk i hlt
    rw [hst] at h
    simp only [Option.some.injEq] at h
    rw [← h]
    simp only
    rw [List.getElem_append_left (by omega)]
    exact List.getElem_mem _
  · exfalso
    subst hi
    have hlt : Nat.choose k z < (coolList k z ++ [2 ^ z - 2 + 2 ^ k]).length := by
      rw [List.length_append, hN]; simp
    have hst := coolest_states k z hz hzk hk _ hlt
    rw [hst] at h
    simp only [Option.some.injEq] at h
    rw [← h] at hg
    simp only at hg
    rw [List.getElem_append_right (by omega)] at hg
    simp only [hN, Nat.sub_self, List.getElem_cons_zero] at hg
    exact hend hg
  · exfalso
    have hlt : Nat.choose k z < (coolList k z ++ [2 ^ z - 2 + 2 ^ k]).length := by
      rw [List.length_append, hN]; simp
    have hst := coolest_states k z hz hzk hk _ hlt
    have hlast : (coolList k z ++ [2 ^ z - 2 + 2 ^ k])[Nat.choose k z] = 2 ^ z - 2 + 2 ^ k := by
      rw [List.getElem_append_right (by omega)]
      simp [hN]
    have := coolest_iter_none_after z (2 ^ k) _ _ _ hst (by rw [hlast]; exact hend)
      (i - Nat.choose k z - 1)
    rw [show Nat.choose k z + 1 + (i - Nat.choose k z - 1) = i by omega] at this
    rw [this] at h
    exact Option.noConfusion h

theorem popcount_coolList (k z : Nat) (hzk : z ≤ k) (hk : k ≤ 30) (x : Nat)
    (hx : x ∈ coolList k z) : popcount x = z := by
  unfold popcount
  rw [bitsBelow_of_le k 64 x (coolList_lt k z hzk x hx) (by omega)]
  exact (coolList_bits k z hzk x hx).1

theorem buffer_fits (k z : Nat) (hzk : z ≤ k) (hk : k ≤ 30) :
    Nat.choose k z * z ≤ binom k z * z % 2 ^ 32 := by
  rw [binom_eq_choose k z hzk hk, Nat.mod_eq_of_lt (choose_le_buffer k z hk)]

theorem gen_comb_algo57_small (k z : Nat) (hz : 1 ≤ z) (hzk : z ≤ k) (hk : k ≤ 30)
    (fuel : Nat) (hf : Nat.choose k z < fuel) :
    gen_comb_algo57 fuel k z = some { k := k, z := z, n := Nat.choose k z, tab :=
      (rdList k z).flatten } := by
  rw [gen_comb_algo57_eq k z hz hzk (by omega) (buffer_fits k z hzk hk) fuel hf,
    binom_eq_choose k z hzk hk, Nat.mod_eq_of_lt (choose_le_buffer k z hk)]
  simp

/-- Claim C1: for `1 ≤ z ≤ k ≤ 30`, `gen_comb_coolest (k, z)` returns (for every
fuel above `C(k, z)`), and the rows it has stored are the `z`-element subsets of
`{0, ..., k-1}` as strictly increasing index lists, each exactly once: the list of
rows has no repetition and holds exactly the strictly increasing lists of `z`
indices below `k`.  (Rows are decoded registers, so no register is met twice.) -/
theorem gen_comb_coolest_enumerates (k z : Nat) (hz : 1 ≤ z) (hzk : z ≤ k) (hk : k ≤ 30) :
    ∃ c, (∀ fuel, Nat.choose k z < fuel → gen_comb_coolest fuel k z = some c) ∧
      (rows c).Nodup ∧
      ∀ l, l ∈ rows c ↔ (l.length = z ∧ l.Sorted (· < ·) ∧ ∀ i ∈ l, i < k) := by
  refine ⟨_, fun fuel hf => gen_comb_coolest_eq k z hz hzk hk fuel hf, ?_⟩
  rw [rows_gen_comb_coolest k z hzk]
  exact coolList_enumerates k z hzk

theorem gen_comb_coolest_enumerates_witness :
    1 ≤ 2 ∧ 2 ≤ 4 ∧ 4 ≤ 30 ∧
    ∃ c, (∀ fuel, Nat.choose 4 2 < fuel → gen_comb_coolest fuel 4 2 = some c) ∧
      (rows c).Nodup ∧
      ∀ l, l ∈ rows c ↔ (l.length = 2 ∧ l.Sorted (· < ·) ∧ ∀ i ∈ l, i < 4) :=
  ⟨by decide, by decide, by decide,
    gen_comb_coolest_enumerates 4 2 (by decide) (by decide) (by decide)⟩

/-- Claim C2, as stated, fails at `k = 31`, `z = 16`: there are
`C(31, 16) = 300540195` subsets, 4808643120 slots in all, more than a 32-bit
product can express; `binom (31, 16)` comes out as 14209041 (its accumulator
wraps), the buffer has 227344656 slots, and `gen_comb_algo57 (31, 16)` returns no
result, a `memcpy` of its loop writing past the buffer. -/
theorem gen_comb_algo57_overruns :
    1 ≤ 16 ∧ 16 ≤ 31 ∧ 31 ≤ 32767 ∧
    binom 31 16 = 14209041 ∧ Nat.choose 31 16 = 300540195 ∧
    (new_comb 31 16).tab.length = 227344656 ∧
    ∀ fuel, gen_comb_algo57 fuel 31 16 = none := by
  have hb : binom 31 16 = 14209041 := by decide
  have hc : Nat.choose 31 16 = 300540195 := by
    norm_num [Nat.choose_eq_factorial_div_factorial, Nat.factorial]
  refine ⟨by decide, by decide, by decide, hb, hc, ?_, ?_⟩
  · unfold new_comb
    rw [hb, List.length_replicate]
    decide
  · exact gen_comb_algo57_none 31 16 (by decide) (by decide) (by decide)
      (by rw [hb, hc]; decide)

/-- Claim C2, amended: for `1 ≤ z ≤ k ≤ 32767` the loop of `gen_comb_algo57`,
looked at on `A` and `J` alone, ends (for every fuel above `C(k, z)`) and the
arrays `A[0..z)` it hands to `memcpy` are the `z`-element subsets of
`{0, ..., k-1}` as strictly increasing index lists, each exactly once; whenever
the buffer of `binom (k, z) * z` slots (32-bit product) has room for `C(k, z)`
rows, which is so for every `k ≤ 30`, `gen_comb_algo57 (k, z)` returns and its
rows are these arrays; when that buffer is too small it returns no result. -/
theorem gen_comb_algo57_enumerates (k z : Nat) (hz : 1 ≤ z) (hzk : z ≤ k) (hk : k ≤ 32767) :
    ∃ tr, (∀ fuel, Nat.choose k z < fuel →
        algo57_trace k z fuel (algo57_init k z) = some tr) ∧
      (emitted z tr).Nodup ∧
      (∀ l, l ∈ emitted z tr ↔ (l.length = z ∧ l.Sorted (· < ·) ∧ ∀ i ∈ l, i < k)) ∧
      (Nat.choose k z * z ≤ binom k z * z % 2 ^ 32 →
        ∃ c, (∀ fuel, Nat.choose k z < fuel → gen_comb_algo57 fuel k z = some c) ∧
          rows c = emitted z tr) ∧
      (k ≤ 30 → Nat.choose k z * z ≤ binom k z * z % 2 ^ 32) ∧
      (binom k z * z % 2 ^ 32 < Nat.choose k z * z →
        ∀ fuel, gen_comb_algo57 fuel k z = none) := by
  refine ⟨_, algo57_trace_eq k z hz hzk hk, ?_⟩
  rw [emitted_states]
  refine ⟨(rdList_enumerates k z).1, (rdList_enumerates k z).2, ?_, ?_, ?_⟩
  · intro hcap
    exact ⟨_, fun fuel hf => gen_comb_algo57_eq k z hz hzk hk hcap fuel hf,
      rows_gen_comb_algo57 k z _⟩
  · intro h30
    exact buffer_fits k z hzk h30
  · intro hcap
    exact gen_comb_algo57_none k z hz hzk hk hcap

theorem gen_comb_algo57_enumerates_witness :
    1 ≤ 2 ∧ 2 ≤ 4 ∧ 4 ≤ 32767 ∧
    ∃ tr, (∀ fuel, Nat.choose 4 2 < fuel →
        algo57_trace 4 2 fuel (algo57_init 4 2) = some tr) ∧
      (emitted 2 tr).Nodup ∧
      (∀ l, l ∈ emitted 2 tr ↔ (l.length = 2 ∧ l.Sorted (· < ·) ∧ ∀ i ∈ l, i < 4)) ∧
      (Nat.choose 4 2 * 2 ≤ binom 4 2 * 2 % 2 ^ 32 →
        ∃ c, (∀ fuel, Nat.choose 4 2 < fuel → gen_comb_algo57 fuel 4 2 = some c) ∧
          rows c = emitted 2 tr) ∧
      (4 ≤ 30 → Nat.choose 4 2 * 2 ≤ binom 4 2 * 2 % 2 ^ 32) ∧
      (binom 4 2 * 2 % 2 ^ 32 < Nat.choose 4 2 * 2 →
        ∀ fuel, gen_comb_algo57 fuel 4 2 = none) :=
  ⟨by decide, by decide, by decide,
    gen_comb_algo57_enumerates 4 2 (by decide) (by decide) (by decide)⟩

/-- Claim C3: for `1 ≤ z ≤ k ≤ 30` both generators return, their final counts `n`
are equal, and both equal `binom (k, z)`, which is the binomial coefficient; the
buffer of `binom (k, z) * z` slots is exactly filled (a write past it would make
the run return no result). -/
theorem gen_counts_eq_binom (k z : Nat) (hz : 1 ≤ z) (hzk : z ≤ k) (hk : k ≤ 30) :
    ∃ c1 c2, (∀ fuel, Nat.choose k z < fuel → gen_comb_coolest fuel k z = some c1) ∧
      (∀ fuel, Nat.choose k z < fuel → gen_comb_algo57 fuel k z = some c2) ∧
      c1.n = c2.n ∧ c1.n = binom k z ∧ binom k z = Nat.choose k z ∧
      c1.tab.length = binom k z * z ∧ c2.tab.length = binom k z * z := by
  refine ⟨_, _, fun fuel hf => gen_comb_coolest_eq k z hz hzk hk fuel hf,
    fun fuel hf => gen_comb_algo57_small k z hz hzk hk fuel hf, rfl, ?_, ?_, ?_, ?_⟩
  · exact (binom_eq_choose k z hzk hk).symm
  · exact binom_eq_choose k z hzk hk
  · simp only
    rw [length_flatten_const z _ (by
      intro r hr
      rw [List.mem_map] at hr
      obtain ⟨x, hx, rfl⟩ := hr
      exact (coolList_bits k z hzk x hx).1), List.length_map, coolList_length k z hzk,
      binom_eq_choose k z hzk hk]
  · simp only
    rw [length_flatten_const z _ (fun r hr => (rdList_isComb k z r hr).1), rdList_length,
      binom_eq_choose k z hzk hk]

theorem gen_counts_eq_binom_witness :
    1 ≤ 3 ∧ 3 ≤ 5 ∧ 5 ≤ 30 ∧ binom 5 3 = 10 ∧
    ∃ c1 c2, (∀ fuel, Nat.choose 5 3 < fuel → gen_comb_coolest fuel 5 3 = some c1) ∧
      (∀ fuel, Nat.choose 5 3 < fuel → gen_comb_algo57 fuel 5 3 = some c2) ∧
      c1.n = c2.n ∧ c1.n = binom 5 3 ∧ binom 5 3 = Nat.choose 5 3 ∧
      c1.tab.length = binom 5 3 * 3 ∧ c2.tab.length = binom 5 3 * 3 :=
  ⟨by decide, by decide, by decide, by decide,
    gen_counts_eq_binom 5 3 (by decide) (by decide) (by decide)⟩

/-- Claim C4: for `1 ≤ z ≤ k ≤ 30` both generators return and the list of rows of
`gen_comb_coolest (k, z)` is a permutation of the list of rows of
`gen_comb_algo57 (k, z)`. -/
theorem gen_rows_perm (k z : Nat) (hz : 1 ≤ z) (hzk : z ≤ k) (hk : k ≤ 30) :
    ∃ c1 c2, (∀ fuel, Nat.choose k z < fuel → gen_comb_coolest fuel k z = some c1) ∧
      (∀ fuel, Nat.choose k z < fuel → gen_comb_algo57 fuel k z = some c2) ∧
      (rows c1).Perm (rows c2) := by
  refine ⟨_, _, fun fuel hf => gen_comb_coolest_eq k z hz hzk hk fuel hf,
    fun fuel hf => gen_comb_algo57_small k z hz hzk hk fuel hf, ?_⟩
  rw [rows_gen_comb_coolest k z hzk]
  have := rows_gen_comb_algo57 k z []
  rw [List.append_nil] at this
  rw [this]
  exact enumerates_perm k z _ _ (coolList_enumerates k z hzk) (rdList_enumerates k z)

theorem gen_rows_perm_witness :
    1 ≤ 2 ∧ 2 ≤ 4 ∧ 4 ≤ 30 ∧
    ∃ c1 c2, (∀ fuel, Nat.choose 4 2 < fuel → gen_comb_coolest fuel 4 2 = some c1) ∧
      (∀ fuel, Nat.choose 4 2 < fuel → gen_comb_algo57 fuel 4 2 = some c2) ∧
      (rows c1).Perm (rows c2) :=
  ⟨by decide, by decide, by decide, gen_rows_perm 4 2 (by decide) (by decide) (by decide)⟩

theorem visit_zero (bc : Nat) (c : combination) :
    visit bc 0 c = some { c with n := (c.n + 1) % 2 ^ 32 } := by
  unfold visit visit_loop
  rw [if_neg (by omega)]
  rfl

theorem coolest_step_zero : coolest_step 0 = 0 := by decide

theorem coolest_pass_zero (c : combination) :
    coolest_pass 0 (0, c) = some (0, { c with n := (c.n + 1) % 2 ^ 32 }) := by
  unfold coolest_pass
  rw [visit_zero, coolest_step_zero]
  rfl

/-- With subset size 0 the register of `the_coolest` stays 0, which passes any
guard: after `i` passes the loop is still running, `i` rows counted. -/
theorem coolest_iter_zero (R2 : Nat) (c : combination) (hn : c.n < 2 ^ 32) : ∀ i,
    coolest_iter 0 R2 i (0, c) = some (0, { c with n := (c.n + i) % 2 ^ 32 }) := by
  intro i
  induction i with
  | zero =>
    rw [Nat.add_zero, Nat.mod_eq_of_lt hn]
    rfl
  | succ i ih =>
    show (coolest_iter 0 R2 i (0, c)).bind _ = _
    rw [ih, Option.some_bind, if_pos (Nat.zero_and R2), coolest_pass_zero]
    simp only [Option.some.injEq, Prod.mk.injEq, true_and, combination.mk.injEq, and_true]
    omega

theorem coolest_loop_zero (R2 : Nat) : ∀ fuel (c : combination),
    coolest_loop 0 R2 fuel (0, c) = none := by
  intro fuel
  induction fuel with
  | zero => intro c; rfl
  | succ f ih =>
    intro c
    unfold coolest_loop
    rw [if_pos (Nat.zero_and R2), coolest_pass_zero, Option.some_bind, ih]

theorem next_comb_fault_one (a : Nat) : next_comb ⟨[a], 1⟩ = none := by
  unfold next_comb
  rw [if_neg (show ¬ ((1 : Int) < 0) by decide)]
  rfl

/-- With `k = 0` and `z = 0` the loop of `gen_comb_algo57`, once `A[0]` holds a
value `a ≥ 1`, counts it down to 0 (the guard `A[0] >= 0` never fails), moves
the cursor to 1 and then reads `A[2]` outside the one allocated slot. -/
theorem algo57_loop_countdown : ∀ m, m + 1 < 65536 → ∀ fuel n,
    algo57_loop 0 fuel ⟨[m + 1], -1⟩ { k := 0, z := 0, n := n, tab := [] } = none := by
  intro m
  induction m with
  | zero =>
    intro _ fuel n
    cases fuel with
    | zero => rfl
    | succ f =>
      unfold algo57_loop
      simp only [List.getElem?_cons_zero, ge_iff_le, Nat.zero_le, if_true, Nat.mul_zero,
        Nat.zero_mod, List.take_zero]
      have hm : memcpy [] 0 [] = some [] := rfl
      rw [hm]
      simp only
      have hn : next_comb ⟨[0 + 1], -1⟩ = some ⟨[0], 1⟩ := by decide
      rw [hn]
      simp only
      cases f with
      | zero => rfl
      | succ f2 =>
        unfold algo57_loop
        simp only [List.getElem?_cons_zero, ge_iff_le, Nat.zero_le, if_true, Nat.mul_zero,
          Nat.zero_mod, List.take_zero]
        rw [hm]
        simp only
        rw [next_comb_fault_one]
  | succ m ih =>
    intro hb fuel n
    cases fuel with
    | zero => rfl
    | succ f =>
      unfold algo57_loop
      simp only [List.getElem?_cons_zero, ge_iff_le, Nat.zero_le, if_true, Nat.mul_zero,
        Nat.zero_mod, List.take_zero]
      have hm : memcpy [] 0 [] = some [] := rfl
      rw [hm]
      simp only
      have hn := next_comb_neg (m + 1 + 1) [] (by omega) hb
      rw [if_neg (by omega)] at hn
      rw [hn]
      simp only [Nat.add_sub_cancel]
      exact ih (by omega) f _

/-- For `k ≥ 1` and subset size 0, `gen_comb_algo57 (k, 0)` returns after one
pass with count 1 and an empty buffer. -/
theorem gen_comb_algo57_zero_pos (k : Nat) (hk : 1 ≤ k) (hk2 : k < 65536) (fuel : Nat) :
    gen_comb_algo57 (fuel + 2) k 0 = some { k := k, z := 0, n := 1, tab := [] } := by
  have hc : new_comb k 0 = { k := k, z := 0, n := 0, tab := [] } := by
    unfold new_comb
    simp
  have hi : algo57_init k 0 = ⟨[k], -1⟩ := by
    unfold algo57_init
    simp only [List.range_zero, List.nil_append, Nat.cast_zero, zero_sub]
    rfl
  have hm : memcpy [] 0 [] = some [] := rfl
  have hn := next_comb_neg k [] hk hk2
  unfold gen_comb_algo57 algo57_loop
  rw [hc, hi]
  simp only [List.getElem?_cons_zero, ge_iff_le, le_refl, if_true, Nat.mul_zero,
    Nat.zero_mod, List.take_zero]
  rw [hm]
  simp only
  rw [hn]
  simp only
  unfold algo57_loop
  simp only [List.getElem?_cons_zero, ge_iff_le]
  rw [if_neg (by omega)]
  rfl

/-- Claim C5: for `1 ≤ z ≤ k ≤ 30` the loop of `the_coolest` starts from guard
`2^k` and register `2^z - 1`, and every register it hands to `visit` (the
register of a state reached after some number of passes that passes the guard)
has exactly `z` set bits, all at positions below `k`, the guard bit `k` being
clear; the run returns and every row written by `visit` is a strictly increasing
list of `z` indices below `k`. -/
theorem coolest_registers_valid (k z : Nat) (hz : 1 ≤ z) (hzk : z ≤ k) (hk : k ≤ 30) :
    coolest_init k z = some (2 ^ k, 2 ^ z - 1) ∧
    (∀ i s, coolest_iter z (2 ^ k) i (2 ^ z - 1, new_comb k z) = some s →
      s.1 &&& 2 ^ k = 0 →
      popcount s.1 = z ∧ s.1 < 2 ^ k ∧ s.1.testBit k = false ∧
        ∀ p, s.1.testBit p = true → p < k) ∧
    ∃ c, (∀ fuel, Nat.choose k z < fuel → gen_comb_coolest fuel k z = some c) ∧
      ∀ l ∈ rows c, l.length = z ∧ l.Sorted (· < ·) ∧ ∀ i ∈ l, i < k := by
  refine ⟨coolest_init_eq k z hzk hk, ?_, ?_⟩
  · intro i s h hg
    have hmem := coolest_visited_mem k z hz hzk hk i s h hg
    have hlt := coolList_lt k z hzk _ hmem
    refine ⟨popcount_coolList k z hzk hk _ hmem, hlt, Nat.testBit_lt_two_pow hlt, ?_⟩
    intro p hp
    by_contra hpk
    have : s.1 < 2 ^ p := lt_of_lt_of_le hlt (Nat.pow_le_pow_right (by norm_num) (by omega))
    rw [Nat.testBit_lt_two_pow this] at hp
    exact Bool.noConfusion hp
  · refine ⟨_, fun fuel hf => gen_comb_coolest_eq k z hz hzk hk fuel hf, ?_⟩
    rw [rows_gen_comb_coolest k z hzk]
    intro l hl
    exact ((coolList_enumerates k z hzk).2 l).mp hl

theorem coolest_registers_valid_witness :
    1 ≤ 3 ∧ 3 ≤ 5 ∧ 5 ≤ 30 ∧
    (coolest_init 5 3 = some (2 ^ 5, 2 ^ 3 - 1) ∧
    (∀ i s, coolest_iter 3 (2 ^ 5) i (2 ^ 3 - 1, new_comb 5 3) = some s →
      s.1 &&& 2 ^ 5 = 0 →
      popcount s.1 = 3 ∧ s.1 < 2 ^ 5 ∧ s.1.testBit 5 = false ∧
        ∀ p, s.1.testBit p = true → p < 5) ∧
    ∃ c, (∀ fuel, Nat.choose 5 3 < fuel → gen_comb_coolest fuel 5 3 = some c) ∧
      ∀ l ∈ rows c, l.length = 3 ∧ l.Sorted (· < ·) ∧ ∀ i ∈ l, i < 5) :=
  ⟨by decide, by decide, by decide,
    coolest_registers_valid 5 3 (by decide) (by decide) (by decide)⟩

/-- Claim C6: for `1 ≤ z ≤ k ≤ 32767` the loop of `gen_comb_algo57`, on `A` and
`J`, ends, and in every entry of its trace (the globals on entry, and after each
call of `next_comb`, the last call included) the part `A[0..z)` is strictly
increasing with all values below `k`; the last call leaves `A = 0, ..., z-1`
with the sentinel lowered to `k - 1`; each emitted array is strictly increasing
with values below `k`; and the same holds of the globals after any number of
passes of the loop taken with its buffer. -/
theorem algo57_invariant (k z : Nat) (hz : 1 ≤ z) (hzk : z ≤ k) (hk : k ≤ 32767) :
    ∃ tr, (∀ fuel, Nat.choose k z < fuel →
        algo57_trace k z fuel (algo57_init k z) = some tr) ∧
      tr.head? = some (algo57_init k z) ∧
      (∀ g ∈ tr, (g.A.take z).length = z ∧ (g.A.take z).Sorted (· < ·) ∧
        ∀ v ∈ g.A.take z, v < k) ∧
      tr.getLast? = some ⟨List.range z ++ [k - 1], lastJ k z⟩ ∧
      (∀ l ∈ emitted z tr, l.Sorted (· < ·) ∧ ∀ v ∈ l, v < k) ∧
      ∀ i s, algo57_iter k i (algo57_init k z, new_comb k z) = some s →
        (s.1.A.take z).length = z ∧ (s.1.A.take z).Sorted (· < ·) ∧
          ∀ v ∈ s.1.A.take z, v < k := by
  refine ⟨_, algo57_trace_eq k z hz hzk hk, algo57_states_head k z hzk hk,
    fun g hg => algo57_states_inv k z hzk g hg, ?_, ?_, ?_⟩
  · unfold algo57_states
    simp
  · rw [emitted_states]
    intro l hl
    exact (rdList_isComb k z l hl).2
  · intro i s h
    obtain ⟨_, j, hj, hjs⟩ := algo57_iter_mem k z hz hzk hk i s h
    rw [← hjs]
    exact algo57_states_inv k z hzk _ (List.getElem_mem hj)

theorem algo57_invariant_witness :
    1 ≤ 2 ∧ 2 ≤ 4 ∧ 4 ≤ 32767 ∧
    ∃ tr, (∀ fuel, Nat.choose 4 2 < fuel →
        algo57_trace 4 2 fuel (algo57_init 4 2) = some tr) ∧
      tr.head? = some (algo57_init 4 2) ∧
      (∀ g ∈ tr, (g.A.take 2).length = 2 ∧ (g.A.take 2).Sorted (· < ·) ∧
        ∀ v ∈ g.A.take 2, v < 4) ∧
      tr.getLast? = some ⟨List.range 2 ++ [4 - 1], lastJ 4 2⟩ ∧
      (∀ l ∈ emitted 2 tr, l.Sorted (· < ·) ∧ ∀ v ∈ l, v < 4) ∧
      ∀ i s, algo57_iter 4 i (algo57_init 4 2, new_comb 4 2) = some s →
        (s.1.A.take 2).length = 2 ∧ (s.1.A.take 2).Sorted (· < ·) ∧
          ∀ v ∈ s.1.A.take 2, v < 4 :=
  ⟨by decide, by decide, by decide, algo57_invariant 4 2 (by decide) (by decide) (by decide)⟩

/-- Claim C7: for `k ≤ n ≤ 30`, `binom (n, k)` in 32-bit unsigned arithmetic is
the binomial coefficient `C(n, k)`; in each pass, where the accumulator enters
with `C(n, j)`, the product `C(n, j) * (n - j)` stays below `2^32` and is
divisible by `j + 1`. -/
theorem binom_exact (n k : Nat) (hk : k ≤ n) (hn : n ≤ 30) :
    binom n k = Nat.choose n k ∧
    (∀ j m, j + m ≤ n →
      binom_loop m (j + 1) (n - j) (Nat.choose n j) = Nat.choose n (j + m)) ∧
    ∀ j, Nat.choose n j * (n - j) < 2 ^ 32 ∧ (j + 1) ∣ Nat.choose n j * (n - j) := by
  refine ⟨binom_eq_choose n k hk hn, fun j m h => binom_loop_eq n hn m j h, ?_⟩
  intro j
  have h1 : Nat.choose n (j + 1) * (j + 1) = Nat.choose n j * (n - j) :=
    Nat.choose_succ_right_eq n j
  rw [← h1]
  exact ⟨choose_mul_lt n j hn, Dvd.intro_left _ rfl⟩

theorem binom_exact_witness :
    3 ≤ 5 ∧ 5 ≤ 30 ∧
    (binom 5 3 = Nat.choose 5 3 ∧
    (∀ j m, j + m ≤ 5 →
      binom_loop m (j + 1) (5 - j) (Nat.choose 5 j) = Nat.choose 5 (j + m)) ∧
    ∀ j, Nat.choose 5 j * (5 - j) < 2 ^ 32 ∧ (j + 1) ∣ Nat.choose 5 j * (5 - j)) :=
  ⟨by decide, by decide, binom_exact 5 3 (by decide) (by decide)⟩

/-- Claim C8: for 16-bit inputs with `k > n`, `binom (n, k)` returns 0. -/
theorem binom_zero_of_gt (n k : Nat) (_hn : n < 65536) (_hk : k < 65536) (h : n < k) :
    binom n k = 0 := by
  unfold binom
  rw [if_pos h]

theorem binom_zero_of_gt_witness :
    4 < 65536 ∧ 5 < 65536 ∧ 4 < 5 ∧ binom 4 5 = 0 :=
  ⟨by decide, by decide, by decide, binom_zero_of_gt 4 5 (by decide) (by decide) (by decide)⟩

/-- Claim C9 fails on the code, here at `k = 3`, `z = 0`: the loop of `the_coolest`
starts from guard 8 and register 0, the register stays 0 and passes the guard
after any number `i` of passes, the count standing at `i` (modulo `2^32`), and
`gen_comb_coolest (3, 0)` returns no result whatever the fuel. -/
theorem coolest_zero_never_halts :
    coolest_init 3 0 = some (8, 0) ∧
    (∀ i, coolest_iter 0 8 i (0, new_comb 3 0)
      = some (0, { new_comb 3 0 with n := i % 2 ^ 32 })) ∧
    0 &&& 8 = 0 ∧
    ∀ fuel, gen_comb_coolest fuel 3 0 = none := by
  refine ⟨by decide, ?_, by decide, ?_⟩
  · intro i
    have := coolest_iter_zero 8 (new_comb 3 0) (by decide) i
    rw [this]
    have h0 : (new_comb 3 0).n = 0 := rfl
    rw [h0, Nat.zero_add]
  · intro fuel
    unfold gen_comb_coolest the_coolest
    have : coolest_init 3 0 = some (8, 0) := by decide
    rw [this]
    exact coolest_loop_zero 8 fuel _

/-- Claim C10 fails on the code at `k = 0`, `z = 0`: the first call of `next_comb`
wraps `A[0]` from 0 to 65535, so that the guard `A[0] >= 0` holds again and a
second row is emitted, and `gen_comb_algo57 (0, 0)` returns no result whatever
the fuel (the countdown of `A[0]` ends in a read of `A[2]`, outside the one
allocated slot). -/
theorem algo57_zero_zero_faults :
    algo57_init 0 0 = ⟨[0], -1⟩ ∧
    next_comb (algo57_init 0 0) = some ⟨[65535], -1⟩ ∧
    next_comb ⟨[0], 1⟩ = none ∧
    ∀ fuel, gen_comb_algo57 fuel 0 0 = none := by
  refine ⟨by decide, by decide, by decide, ?_⟩
  intro fuel
  cases fuel with
  | zero => rfl
  | succ f =>
    have hc : new_comb 0 0 = { k := 0, z := 0, n := 0, tab := [] } := by decide
    have hi : algo57_init 0 0 = ⟨[0], -1⟩ := by decide
    unfold gen_comb_algo57 algo57_loop
    rw [hc, hi]
    simp only [List.getElem?_cons_zero, ge_iff_le, Nat.zero_le, if_true, Nat.mul_zero,
      Nat.zero_mod, List.take_zero]
    have hm : memcpy [] 0 [] = some [] := rfl
    rw [hm]
    simp only
    have hn : next_comb ⟨[0], -1⟩ = some ⟨[65534 + 1], -1⟩ := by decide
    rw [hn]
    simp only
    exact algo57_loop_countdown 65534 (by decide) f _

/-! ### Boundary cases `z = k` and `z > k` -/

theorem coolList_self (k : Nat) : coolList k k = [2 ^ k - 1] := by
  have h := coolList_length k k (le_refl k)
  rw [Nat.choose_self] at h
  unfold coolList at h ⊢
  rw [List.length_cons] at h
  have : coolT k k = [] := List.length_eq_zero.mp (by omega)
  rw [this]

theorem bitsBelow_ones (k : Nat) : bitsBelow k (2 ^ k - 1) = List.range k := by
  unfold bitsBelow
  rw [List.filter_eq_self]
  intro i hi
  rw [Nat.testBit_two_pow_sub_one]
  simpa using hi

theorem rdList_self (k : Nat) : rdList k k = [List.range k] := by
  have hl := rdList_length k k
  rw [Nat.choose_self] at hl
  have hh := (rdList_ends k k).1 (le_refl k)
  match h : rdList k k, hl, hh with
  | [a], _, hh =>
    simp only [List.head?_cons, Option.some.injEq] at hh
    rw [hh]

theorem rows_single (k : Nat) (l : List Nat) (h : l.length = k) :
    rows { k := k, z := k, n := 1, tab := l } = [l] := by
  have := rows_of_flatten k k 1 [l] [] (by simp [h]) rfl
  simpa using this

theorem binom_of_gt (n k : Nat) (h : n < k) : binom n k = 0 := by
  unfold binom
  rw [if_pos h]

theorem new_comb_of_gt (k z : Nat) (h : k < z) :
    new_comb k z = { k := k, z := z, n := 0, tab := [] } := by
  unfold new_comb
  rw [binom_of_gt k z h]
  simp

theorem coolest_init_gt (k z : Nat) (hkz : k < z) (hz : z ≤ 30) :
    coolest_init k z = some (2 ^ k, 2 ^ z - 1) := by
  unfold coolest_init
  have e : ((k + (2 ^ 64 - z)) % 2 ^ 64 + z) % 2 ^ 64 = k := by omega
  simp only [e, shl_int]
  rw [if_pos (by omega), if_pos hz]

theorem guard_set_of_gt (k z : Nat) (hkz : k < z) : (2 ^ z - 1) &&& 2 ^ k ≠ 0 := by
  intro h
  have := congrArg (fun x => x.testBit k) h
  simp only [Nat.testBit_and, Nat.testBit_two_pow_sub_one, Nat.testBit_two_pow_self,
    Nat.zero_testBit, Bool.and_true, decide_eq_false_iff_not] at this
  exact this hkz

theorem gen_comb_coolest_gt (k z : Nat) (hkz : k < z) (hz : z ≤ 30) (fuel : Nat)
    (hf : 0 < fuel) :
    gen_comb_coolest fuel k z = some { k := k, z := z, n := 0, tab := [] } := by
  obtain ⟨f, rfl⟩ : ∃ f, fuel = f + 1 := ⟨fuel - 1, by omega⟩
  unfold gen_comb_coolest the_coolest
  rw [coolest_init_gt k z hkz hz, new_comb_of_gt k z hkz]
  simp only [coolest_loop]
  rw [if_neg (guard_set_of_gt k z hkz)]

theorem coolest_iter_gt (k z : Nat) (hkz : k < z) (c : combination) :
    coolest_iter z (2 ^ k) 1 (2 ^ z - 1, c) = none := by
  simp only [coolest_iter, Option.some_bind]
  rw [if_neg (guard_set_of_gt k z hkz)]

/-- For `z > k` the first pass of the loop of `gen_comb_algo57` copies `z`
values into the buffer of `binom(k, z) * z = 0` slots. -/
theorem gen_comb_algo57_gt (k z : Nat) (hkz : k < z) :
    ∀ fuel, gen_comb_algo57 fuel k z = none := by
  intro fuel
  unfold gen_comb_algo57
  rw [new_comb_of_gt k z hkz]
  cases fuel with
  | zero => rfl
  | succ f =>
    have hA : (algo57_init k z).A[z]? = some k := by
      unfold algo57_init
      simp
    have hm : memcpy [] (0 * z % 2 ^ 32) ((algo57_init k z).A.take z) = none := by
      unfold memcpy algo57_init
      rw [if_neg]
      simp
      omega
    simp only [algo57_loop, hA, ge_iff_le, le_refl, if_true, hm]

/-- Claim C11: for `1 ≤ k ≤ 30` and `z = k`, both `gen_comb_coolest (k, k)` and
`gen_comb_algo57 (k, k)` return (for every fuel above one pass), with count
`n = 1`, and the single row stored is the full index list `[0, 1, ..., k-1]`. -/
theorem gen_comb_full_single (k : Nat) (hk1 : 1 ≤ k) (hk : k ≤ 30) :
    ∃ c1 c2, (∀ fuel, 1 < fuel → gen_comb_coolest fuel k k = some c1) ∧
      (∀ fuel, 1 < fuel → gen_comb_algo57 fuel k k = some c2) ∧
      c1.n = 1 ∧ c2.n = 1 ∧
      rows c1 = [List.range k] ∧ rows c2 = [List.range k] := by
  refine ⟨{ k := k, z := k, n := 1, tab := List.range k },
    { k := k, z := k, n := 1, tab := List.range k }, ?_, ?_, rfl, rfl,
    rows_single k _ (List.length_range k), rows_single k _ (List.length_range k)⟩
  · intro fuel hf
    rw [gen_comb_coolest_eq k k hk1 (le_refl k) hk fuel (by rw [Nat.choose_self]; exact hf),
      Nat.choose_self, coolList_self, List.map_singleton, bitsBelow_ones]
    simp
  · intro fuel hf
    rw [gen_comb_algo57_small k k hk1 (le_refl k) hk fuel (by rw [Nat.choose_self]; exact hf),
      Nat.choose_self, rdList_self]
    simp

theorem gen_comb_full_single_witness :
    1 ≤ 3 ∧ 3 ≤ 30 ∧
    ∃ c1 c2, (∀ fuel, 1 < fuel → gen_comb_coolest fuel 3 3 = some c1) ∧
      (∀ fuel, 1 < fuel → gen_comb_algo57 fuel 3 3 = some c2) ∧
      c1.n = 1 ∧ c2.n = 1 ∧
      rows c1 = [List.range 3] ∧ rows c2 = [List.range 3] :=
  ⟨by decide, by decide, gen_comb_full_single 3 (by decide) (by decide)⟩

/-- Claim C12: for `k < z ≤ 30`, `the_coolest` computes `s = k - z` wrapped to
`2^64 - (z - k)`, its guard is still `2^k` and its first register `2^z - 1`, in
which bit `k` is set: the loop makes no pass (there is no state after one
pass, so `visit` is never called) and `gen_comb_coolest (k, z)` returns, for
every positive fuel, the empty set with `n = 0` and no row. -/
theorem gen_comb_coolest_empty (k z : Nat) (hkz : k < z) (hz : z ≤ 30) :
    (k + (2 ^ 64 - z)) % 2 ^ 64 = 2 ^ 64 - (z - k) ∧
    coolest_init k z = some (2 ^ k, 2 ^ z - 1) ∧
    (2 ^ z - 1) &&& 2 ^ k ≠ 0 ∧
    coolest_iter z (2 ^ k) 1 (2 ^ z - 1, new_comb k z) = none ∧
    ∃ c, (∀ fuel, 0 < fuel → gen_comb_coolest fuel k z = some c) ∧
      c.n = 0 ∧ c.tab = [] ∧ rows c = [] := by
  refine ⟨by omega, coolest_init_gt k z hkz hz, guard_set_of_gt k z hkz,
    coolest_iter_gt k z hkz _, { k := k, z := z, n := 0, tab := [] },
    fun fuel hf => gen_comb_coolest_gt k z hkz hz fuel hf, rfl, rfl, rfl⟩

theorem gen_comb_coolest_empty_witness :
    4 < 5 ∧ 5 ≤ 30 ∧
    ((4 + (2 ^ 64 - 5)) % 2 ^ 64 = 2 ^ 64 - (5 - 4) ∧
    coolest_init 4 5 = some (2 ^ 4, 2 ^ 5 - 1) ∧
    (2 ^ 5 - 1) &&& 2 ^ 4 ≠ 0 ∧
    coolest_iter 5 (2 ^ 4) 1 (2 ^ 5 - 1, new_comb 4 5) = none ∧
    ∃ c, (∀ fuel, 0 < fuel → gen_comb_coolest fuel 4 5 = some c) ∧
      c.n = 0 ∧ c.tab = [] ∧ rows c = []) :=
  ⟨by decide, by decide, gen_comb_coolest_empty 4 5 (by decide) (by decide)⟩

/-- Claim C13, at `k = 4`, `z = 5`: `binom (4, 5) = 0`, so the buffer of
`gen_comb_algo57 (4, 5)` has no slot; the guard `A[5] >= 4` holds on entry
(`A[5] = 4`), the first pass copies the five values `0, 1, 2, 3, 4` to the
start of that buffer, and the call returns no result whatever the fuel, while
`gen_comb_coolest (4, 5)` returns the empty set. -/
theorem gen_comb_algo57_gt_faults :
    binom 4 5 = 0 ∧ (new_comb 4 5).tab = [] ∧
    algo57_init 4 5 = ⟨[0, 1, 2, 3, 4, 4], 4⟩ ∧
    memcpy (new_comb 4 5).tab 0 ((algo57_init 4 5).A.take 5) = none ∧
    (∀ fuel, gen_comb_algo57 fuel 4 5 = none) ∧
    gen_comb_coolest 1 4 5 = some { k := 4, z := 5, n := 0, tab := [] } := by
  refine ⟨by decide, by decide, by decide, by decide, gen_comb_algo57_gt 4 5 (by decide),
    gen_comb_coolest_gt 4 5 (by decide) (by decide) 1 (by decide)⟩

/-- Claim C14: for `k = 4` and `z = 2` both `gen_comb_coolest` and
`gen_comb_algo57` return (for every fuel of at least 7) with `n = 6`; the rows
of each are a rearrangement of `[0,1], [0,2], [0,3], [1,2], [1,3], [2,3]`
without repetition, the first row of each is `[0,1]`, and the two row sequences
differ (rows 4 and 5 are exchanged). -/
theorem gen_comb_4_2 :
    ∃ c1 c2, (∀ fuel, gen_comb_coolest (fuel + 7) 4 2 = some c1) ∧
      (∀ fuel, gen_comb_algo57 (fuel + 7) 4 2 = some c2) ∧
      c1.n = 6 ∧ c2.n = 6 ∧
      rows c1 = [[0, 1], [1, 2], [0, 2], [1, 3], [2, 3], [0, 3]] ∧
      rows c2 = [[0, 1], [1, 2], [0, 2], [2, 3], [1, 3], [0, 3]] ∧
      (rows c1).Perm [[0, 1], [0, 2], [0, 3], [1, 2], [1, 3], [2, 3]] ∧
      (rows c2).Perm [[0, 1], [0, 2], [0, 3], [1, 2], [1, 3], [2, 3]] ∧
      (rows c1).Nodup ∧ (rows c2).Nodup ∧
      (rows c1).head? = some [0, 1] ∧ (rows c2).head? = some [0, 1] ∧
      rows c1 ≠ rows c2 := by
  have h1 : ((coolList 4 2).map (bitsBelow 4)).flatten
      = [0, 1, 1, 2, 0, 2, 1, 3, 2, 3, 0, 3] := by decide
  have h2 : (rdList 4 2).flatten = [0, 1, 1, 2, 0, 2, 2, 3, 1, 3, 0, 3] := by decide
  have hc : Nat.choose 4 2 = 6 := by decide
  refine ⟨{ k := 4, z := 2, n := 6, tab := [0, 1, 1, 2, 0, 2, 1, 3, 2, 3, 0, 3] },
    { k := 4, z := 2, n := 6, tab := [0, 1, 1, 2, 0, 2, 2, 3, 1, 3, 0, 3] },
    ?_, ?_, rfl, rfl, by decide, by decide, by decide, by decide, by decide, by decide,
    by decide, by decide, by decide⟩
  · intro fuel
    rw [gen_comb_coolest_eq 4 2 (by decide) (by decide) (by decide) (fuel + 7)
      (by rw [hc]; omega), h1, hc]
  · intro fuel
    rw [gen_comb_algo57_small 4 2 (by decide) (by decide) (by decide) (fuel + 7)
      (by rw [hc]; omega), h2, hc]

/-! ### The saturating decrement and the `int` shifts -/

theorem sat_sub_eq (x : Nat) (hx : x < 2 ^ 64) :
    sat_sub x = if x = 0 then 0 else x - 1 := by
  unfold sat_sub
  by_cases h0 : x = 0
  · subst h0
    decide
  · rw [if_neg h0]
    have e : (x + (2 ^ 64 - 1)) % 2 ^ 64 = x - 1 := by omega
    simp only [e]
    rw [if_pos (Nat.sub_le x 1), Nat.and_pow_two_sub_one_eq_mod]
    exact Nat.mod_eq_of_lt (by omega)

theorem sat_sub_eq_satdec (x : Nat) (hx : x < 2 ^ 64) : sat_sub x = satdec x := by
  rw [sat_sub_eq x hx]
  rfl

/-- The body of `coolest_step` with lines 113-114 named `sat_sub`. -/
theorem coolest_step_sat_sub (R3 : Nat) :
    coolest_step R3 =
      ((R3 + (((R3 &&& ((R3 + 1) % 2 ^ 64)) ^^^
              (((R3 &&& ((R3 + 1) % 2 ^ 64)) + (2 ^ 64 - 1)) % 2 ^ 64)) &&& R3)) % 2 ^ 64
        + (2 ^ 64 - sat_sub
            (((((R3 &&& ((R3 + 1) % 2 ^ 64)) ^^^
                (((R3 &&& ((R3 + 1) % 2 ^ 64)) + (2 ^ 64 - 1)) % 2 ^ 64)) + 1) % 2 ^ 64)
              &&& R3))) % 2 ^ 64 := rfl

theorem coolest_init_wide (k z : Nat) (hzk : z ≤ k) (hk : 31 ≤ k) (hk2 : k < 2 ^ 64) :
    coolest_init k z = none := by
  unfold coolest_init
  have e : ((k + (2 ^ 64 - z)) % 2 ^ 64 + z) % 2 ^ 64 = k := by omega
  simp only [e, shl_int]
  rw [if_neg (by omega)]

theorem gen_comb_coolest_wide (k z : Nat) (hzk : z ≤ k) (hk : 31 ≤ k) (hk2 : k < 2 ^ 64)
    (fuel : Nat) : gen_comb_coolest fuel k z = none := by
  unfold gen_comb_coolest the_coolest
  rw [coolest_init_wide k z hzk hk hk2]

/-- Claim C15, at `k = 31`, `z = 1` (and at `k = 40` and `k = 62`): the shift
`1 << (s + t)` is a shift of the `int` literal 1 by 31 or more positions, which
has no defined value, so `the_coolest` does not set the guard to `2^k`
and `gen_comb_coolest (31, 1)` returns no result whatever the fuel; at
`k = 30` the guard is `2^30` and the register `2^1 - 1`. -/
theorem coolest_init_wide_faults :
    shl_int 31 = none ∧
    coolest_init 31 1 = none ∧ coolest_init 40 1 = none ∧ coolest_init 62 3 = none ∧
    (∀ fuel, gen_comb_coolest fuel 31 1 = none) ∧
    coolest_init 30 1 = some (2 ^ 30, 2 ^ 1 - 1) := by
  refine ⟨by decide, by decide, by decide, by decide, ?_, by decide⟩
  intro fuel
  exact gen_comb_coolest_wide 31 1 (by decide) (by decide) (by decide) fuel

/-- Claim C16 fails at the register `R = 0b01110 = 14`, the second register met
by `the_coolest` for `k = 5`, `z = 3`: the loop body assigns 13 (`0b01101`) to
`R3`, while `R + t - satdec (o & R)` with `o = R & (R+1) = 14`, `t = 2` is
`14 + 2 - 13 = 3`. -/
theorem coolest_step_ne_spec_successor :
    (coolest_iter 3 (2 ^ 5) 1 (2 ^ 3 - 1, new_comb 5 3)).map (fun s => s.1) = some 14 ∧
    14 &&& 2 ^ 5 = 0 ∧
    coolest_step 14 = 13 ∧ spec_successor 14 = 3 ∧
    coolest_step 14 ≠ spec_successor 14 := by
  refine ⟨by decide, by decide, by decide, by decide, by decide⟩

/-- Claim C16, amended: for every register value `R`, one pass of the loop body
of `the_coolest` assigns to `R3` the value `R + t - satdec (u & R)` in 64-bit
unsigned arithmetic, where `o = R & (R+1)`, `m = o ^ (o-1)`, `t = m & R` and
`u = m + 1` (the single bit just above the mask `m`; the code reuses `R0` for
it), `satdec` being the decrement that keeps 0 at 0. -/
theorem coolest_step_formula (R : Nat) :
    coolest_step R =
      ((R + (((R &&& ((R + 1) % 2 ^ 64)) ^^^
              (((R &&& ((R + 1) % 2 ^ 64)) + (2 ^ 64 - 1)) % 2 ^ 64)) &&& R)) % 2 ^ 64
        + (2 ^ 64 - satdec
            (((((R &&& ((R + 1) % 2 ^ 64)) ^^^
                (((R &&& ((R + 1) % 2 ^ 64)) + (2 ^ 64 - 1)) % 2 ^ 64)) + 1) % 2 ^ 64)
              &&& R))) % 2 ^ 64 := by
  have hu : ((((R &&& ((R + 1) % 2 ^ 64)) ^^^
      (((R &&& ((R + 1) % 2 ^ 64)) + (2 ^ 64 - 1)) % 2 ^ 64)) + 1) % 2 ^ 64) &&& R < 2 ^ 64 :=
    lt_of_le_of_lt Nat.and_le_left (Nat.mod_lt _ (Nat.two_pow_pos 64))
  rw [← sat_sub_eq_satdec _ hu]
  rfl

/-- Claim C17, at `binom (40, 1)` and `binom (31, 0)`: the code replaces `z` by
the larger of `z` and `k - z` (39 and 31 passes of the loop, whose 32-bit
products wrap) and returns 0 in both cases, while the accumulation run for
`d = 1 .. min (z, k - z)` gives 40 and 1, the binomial coefficients. -/
theorem binom_mirrors_to_larger :
    binom 40 1 = 0 ∧ spec_binom 40 1 = 40 ∧ Nat.choose 40 1 = 40 ∧
    binom 31 0 = 0 ∧ spec_binom 31 0 = 1 ∧ Nat.choose 31 0 = 1 ∧
    binom 40 1 = binom_loop 39 1 40 1 ∧ binom 31 0 = binom_loop 31 1 31 1 ∧
    binom 40 1 ≠ spec_binom 40 1 ∧ binom 31 0 ≠ spec_binom 31 0 := by
  refine ⟨by decide, by decide, by decide, by decide, by decide, by decide, by decide,
    by decide, by decide, by decide⟩

/-- Claim C18, at `R = 2^40`, `z = 1`, `n = 0` and a buffer of one slot: the
only set bit of `R` is at position 40, but `visit` tests bit `i` by
`R & (1 << i)` with an `int` literal 1, and on reaching `i = 31` the shift has
no defined value: `visit` yields no result instead of the row `[40]`.  At
`R = 2^30` it stores `[30]` and sets `n = 1`. -/
theorem visit_high_bit_faults :
    2 ^ 40 < 2 ^ 63 ∧ bitsBelow 64 (2 ^ 40) = [40] ∧
    BITISET (2 ^ 40) 30 = some 0 ∧ BITISET (2 ^ 40) 31 = none ∧
    visit (2 ^ 40) 1 { k := 41, z := 1, n := 0, tab := [0] } = none ∧
    visit (2 ^ 30) 1 { k := 41, z := 1, n := 0, tab := [0] }
      = some { k := 41, z := 1, n := 1, tab := [30] } := by
  refine ⟨by decide, by decide, by decide, by decide, by decide, by decide⟩

/-- Claim C19: for every 64-bit unsigned value `x`, the statements
`R4 = x - 1; R4 &= -(R4 <= x);` of `the_coolest` leave `R4 = x - 1` when
`x > 0` and `R4 = 0` when `x = 0`; the result is never `2^64 - 1`. -/
theorem sat_sub_saturates (x : Nat) (hx : x < 2 ^ 64) :
    sat_sub x = (if x = 0 then 0 else x - 1) ∧ (0 < x → sat_sub x = x - 1) ∧
    (x = 0 → sat_sub x = 0) ∧ sat_sub x ≠ 2 ^ 64 - 1 := by
  have h := sat_sub_eq x hx
  refine ⟨h, ?_, ?_, ?_⟩
  · intro hpos
    rw [h, if_neg (by omega)]
  · intro h0
    rw [h, if_pos h0]
  · rw [h]
    split <;> omega

theorem sat_sub_saturates_witness :
    0 < 2 ^ 64 ∧
    (sat_sub 0 = (if 0 = 0 then 0 else 0 - 1) ∧ (0 < 0 → sat_sub 0 = 0 - 1) ∧
    (0 = 0 → sat_sub 0 = 0) ∧ sat_sub 0 ≠ 2 ^ 64 - 1) :=
  ⟨by decide, sat_sub_saturates 0 (by decide)⟩

/-! ### The cursor at each call of `next_comb` -/

theorem packedLen_le : ∀ (l : List Nat) (i : Nat), packedLen l i ≤ l.length := by
  intro l
  induction l with
  | nil => intro i; simp [packedLen]
  | cons a l ih =>
    intro i
    show (if a = i then packedLen l (i + 1) + 1 else 0) ≤ (a :: l).length
    split
    · have := ih (i + 1)
      simp only [List.length_cons]
      omega
    · exact Nat.zero_le _

theorem packedLen_zero_head (a : Nat) (l : List Nat) (h : packedLen (a :: l) 0 = 0) :
    1 ≤ a := by
  have h' : (if a = 0 then packedLen l (0 + 1) + 1 else 0) = 0 := h
  by_cases ha : a = 0
  · rw [if_pos ha] at h'
    omega
  · omega

theorem cursor_bounds (z : Nat) (hz : 1 ≤ z) (c : List Nat) (hc : c.length = z) (x : Nat) :
    -1 ≤ cursor z (c ++ [x]) ∧ cursor z (c ++ [x]) ≤ (z : Int) - 1 ∧
      (cursor z (c ++ [x]) < 0 → ∃ a0, (c ++ [x])[0]? = some a0 ∧ 1 ≤ a0) := by
  unfold cursor
  rw [List.take_left' hc]
  have hle := packedLen_le c 0
  rw [hc] at hle
  refine ⟨by split <;> omega, by split <;> omega, ?_⟩
  intro hneg
  have hq : packedLen c 0 = 0 := by
    split at hneg <;> omega
  cases c with
  | nil =>
    simp only [List.length_nil] at hc
    omega
  | cons a l => exact ⟨a, by simp, packedLen_zero_head a l hq⟩

/-- Every entry of `algo57_states` but the last is fit for the call of
`next_comb` made on it. -/
theorem algo57_states_call (k z : Nat) (hz : 1 ≤ z) (hzk : z ≤ k) (hk : k ≤ 32767)
    (j : Nat) (hj : j + 1 < (algo57_states k z).length) :
    CallInRange z ((algo57_states k z)[j]) := by
  have hlen := algo57_states_length k z
  have hch := (List.chain'_iff_get.mp (algo57_states_chain k z hz hzk hk)) j (by omega)
  simp only [List.get_eq_getElem] at hch
  have hjl : j < (rdList k z).length := by rw [rdList_length]; omega
  have hst : (algo57_states k z)[j]
      = ⟨(rdList k z)[j] ++ [k], cursor z ((rdList k z)[j] ++ [k])⟩ := by
    unfold algo57_states
    rw [List.getElem_append_left (by rw [List.length_map]; exact hjl), List.getElem_map]
  have hcomb := rdList_isComb k z _ (List.getElem_mem hjl)
  obtain ⟨h1, h2, h3⟩ := cursor_bounds z hz _ hcomb.1 k
  refine ⟨?_, ?_, ?_, ?_, ?_⟩
  · rw [hst]
    simp [hcomb.1]
  · rw [hst]; exact h1
  · rw [hst]; exact h2
  · rw [hst]; exact h3
  · rw [hch]; rfl

theorem mem_dropLast_getElem {α : Type} (l : List α) (g : α) (h : g ∈ l.dropLast) :
    ∃ j, ∃ hj : j + 1 < l.length, l[j] = g := by
  obtain ⟨j, hj, rfl⟩ := List.getElem_of_mem h
  rw [List.length_dropLast] at hj
  exact ⟨j, by omega, by rw [List.getElem_dropLast]⟩

/-- Claim C20: for `1 ≤ z ≤ k ≤ 32767`, at every call of `next_comb` made by the
loop of `gen_comb_algo57` (every entry of the trace of the globals but the
last, at which the guard fails; and the globals after any number of passes of
the loop with its buffer, when the guard holds) the array has `z + 1` slots,
the cursor satisfies `-1 ≤ J ≤ z - 1`, `A[0] ≥ 1` whenever `J < 0`, and the
call performs no access outside the slots `A[0..z]`. -/
theorem next_comb_calls_in_range (k z : Nat) (hz : 1 ≤ z) (hzk : z ≤ k) (hk : k ≤ 32767) :
    (∃ tr, (∀ fuel, Nat.choose k z < fuel →
        algo57_trace k z fuel (algo57_init k z) = some tr) ∧
      ∀ g ∈ tr.dropLast, CallInRange z g) ∧
    ∀ i s az, algo57_iter k i (algo57_init k z, new_comb k z) = some s →
      s.1.A[z]? = some az → az ≥ k → CallInRange z s.1 := by
  refine ⟨⟨_, algo57_trace_eq k z hz hzk hk, ?_⟩, ?_⟩
  · intro g hg
    obtain ⟨j, hj, rfl⟩ := mem_dropLast_getElem _ g hg
    exact algo57_states_call k z hz hzk hk j hj
  · intro i s az h h1 h2
    obtain ⟨_, j, hj, hjs⟩ := algo57_iter_mem k z hz hzk hk i s h
    have hj1 := algo57_states_guard_last k z hz hzk j hj az (by rw [hjs]; exact h1) h2
    rw [← hjs]
    exact algo57_states_call k z hz hzk hk j hj1

theorem next_comb_calls_in_range_witness :
    1 ≤ 2 ∧ 2 ≤ 4 ∧ 4 ≤ 32767 ∧
    ((∃ tr, (∀ fuel, Nat.choose 4 2 < fuel →
        algo57_trace 4 2 fuel (algo57_init 4 2) = some tr) ∧
      ∀ g ∈ tr.dropLast, CallInRange 2 g) ∧
    ∀ i s az, algo57_iter 4 i (algo57_init 4 2, new_comb 4 2) = some s →
      s.1.A[2]? = some az → az ≥ 4 → CallInRange 2 s.1) :=
  ⟨by decide, by decide, by decide,
    next_comb_calls_in_range 4 2 (by decide) (by decide) (by decide)⟩

end Loopless
